import Mathlib

/-
  Verification of the core pipeline of `src/mc_plugin_translator.py`, a
  YAML plugin translator: placeholder/term masking and unmasking, the
  translation gateway with retry/fallback, the tree walker, the post-fix
  repairer, the leakage auditor and the YAML auto-repair pass.

  Strings are modelled as lists of characters (`Str`).  Python regular
  expressions used by the program are modelled by explicit left-to-right
  scanners following the semantics of `re.sub` (leftmost match,
  non-overlapping, alternatives tried in order, greedy character classes).
  Character classes (`\s`, `\w`, case folding) are modelled over the ASCII
  range; all concrete data handled by the claims is ASCII.

  All recursive scanners take an explicit fuel argument equal to the
  length of the scanned string, so that they are structurally recursive
  and reduce inside the kernel; the out-of-fuel branches are unreachable
  whenever the fuel is at least the input length, which every wrapper
  guarantees.
-/

abbrev Str := List Char

def strL (s : String) : Str := s.data

/-- Whitespace, modelling the Python `str.split()` / regex `\s` (ASCII range). -/
def isSpace (c : Char) : Bool :=
  c = ' ' || c = '\t' || c = '\n' || c = '\r' || c = '\x0b' || c = '\x0c'

/-- Word characters, modelling the regex classes `[A-Za-z0-9_]` and `\w` (ASCII range). -/
def isWordChar (c : Char) : Bool :=
  (65 ≤ c.toNat && c.toNat ≤ 90) || (97 ≤ c.toNat && c.toNat ≤ 122) ||
    (48 ≤ c.toNat && c.toNat ≤ 57) || c = '_'

/-- Decimal digit characters `0`-`9`. -/
def isDig (c : Char) : Bool := 48 ≤ c.toNat && c.toNat ≤ 57

/-- Lower-casing of a string, modelling the Python `str.lower` on ASCII data. -/
def toLowerStr (s : Str) : Str := s.map Char.toLower

/-- Test that `pat` is an initial segment of `s`. -/
def leadsWith : Str → Str → Bool
  | [], _ => true
  | _ :: _, [] => false
  | a :: as, b :: bs => a = b && leadsWith as bs

/-- Test that `pat` occurs as a contiguous substring of `s`. -/
def hasSub (pat : Str) : Str → Bool
  | [] => pat.isEmpty
  | c :: rest => leadsWith pat (c :: rest) || hasSub pat rest

/-- Character of a decimal digit. -/
def digCh : Nat → Char
  | 0 => '0' | 1 => '1' | 2 => '2' | 3 => '3' | 4 => '4'
  | 5 => '5' | 6 => '6' | 7 => '7' | 8 => '8' | _ => '9'

/-- Fuelled accumulator loop for decimal rendering. -/
def natStrAux : Nat → Nat → Str → Str
  | 0, n, acc => digCh n :: acc
  | fuel+1, n, acc => if n < 10 then digCh n :: acc
      else natStrAux fuel (n / 10) (digCh (n % 10) :: acc)

/-- Decimal rendering of a natural number, as produced by a Python f-string. -/
def natStr (n : Nat) : Str := natStrAux n n []

/-- Masking token for placeholders: `__PH<n>__`. -/
def phTok (n : Nat) : Str := strL "__PH" ++ natStr n ++ strL "__"

/-- Masking token for protected terms: `__MT<n>__`. -/
def mtTok (n : Nat) : Str := strL "__MT" ++ natStr n ++ strL "__"

/-- Leftmost-position match of `PLACEHOLDER_RE`, the alternation
`\{[^}]+\}|%[^%\s]+%|\$[A-Za-z0-9_]+`, at the head of the input.  Returns the
matched span together with the rest of the input.  The three alternatives
start with distinct characters, and the greedy classes cannot backtrack
into a successful shorter match, so this function is an exact model of the
regex engine behaviour at one position. -/
def matchPH : Str → Option (Str × Str)
  | '{' :: rest =>
      match rest.dropWhile (fun c => c ≠ '}') with
      | '}' :: tail =>
          if (rest.takeWhile (fun c => c ≠ '}')).isEmpty then none
          else some ('{' :: (rest.takeWhile (fun c => c ≠ '}') ++ ['}']), tail)
      | _ => none
  | '%' :: rest =>
      match rest.dropWhile (fun c => c ≠ '%' && !isSpace c) with
      | '%' :: tail =>
          if (rest.takeWhile (fun c => c ≠ '%' && !isSpace c)).isEmpty then none
          else some ('%' :: (rest.takeWhile (fun c => c ≠ '%' && !isSpace c) ++ ['%']), tail)
      | _ => none
  | '$' :: rest =>
      if (rest.takeWhile isWordChar).isEmpty then none
      else some ('$' :: rest.takeWhile isWordChar, rest.dropWhile isWordChar)
  | _ => none

/-- Scanner for `PLACEHOLDER_RE.sub(repl_ph, text)`: walks the text left to
right, replaces every placeholder match with a fresh `__PH<n>__` token and
records the (token, original span) pair at the end of the mapping, exactly
as `repl_ph` mutates `mapping` and `token_index`. -/
def subPHAux : Nat → Str → Nat → List (Str × Str) → Str × Nat × List (Str × Str)
  | _, [], i, m => ([], i, m)
  | 0, s, i, m => (s, i, m)
  | fuel+1, c :: cs, i, m =>
      match matchPH (c :: cs) with
      | some (sp, r) =>
          let tk := phTok i
          let next := subPHAux fuel r (i + 1) (m ++ [(tk, sp)])
          (tk ++ next.1, next.2)
      | none =>
          let next := subPHAux fuel cs i m
          (c :: next.1, next.2)

/-- The protected-term vocabulary `MINECRAFT_TERMS`, in source listing order.
The source stores it as a Python set; iteration order of a set is
unspecified, and the listing order is one admissible order. -/
def mineTermsList : List Str :=
  [strL "Land", strL "land", strL "Chunk", strL "Chunks", strL "chunk", strL "chunks",
   strL "Biome", strL "biomes", strL "Nether", strL "End", strL "Overworld", strL "PvP",
   strL "PVP", strL "Cooldown", strL "Cooldowns", strL "Claim", strL "Claims",
   strL "claim", strL "claims", strL "Unclaim", strL "unclaim", strL "Spawn",
   strL "Mob", strL "Mobs", strL "XP", strL "Health", strL "Mana", strL "Region",
   strL "Block", strL "Blocks", strL "Item", strL "Items", strL "Inventory",
   strL "Server", strL "Player", strL "Players", strL "World", strL "Worlds"]

/-- Lowercased vocabulary, modelling `LOWER_TERMS` (membership is all the
source uses, so duplicates are irrelevant). -/
def lowerTerms : List Str := mineTermsList.map toLowerStr

/-- The alternation order of `TERMS_PATTERN`: vocabulary sorted by length,
longest first.  Within one length the order is unspecified in the source
(set iteration order); the scanner output does not depend on the tie
order because two same-length alternatives can only match the same span
when they are case-insensitively equal, and the replacement only uses the
matched text itself. -/
def sortedTerms : List Str :=
  [strL "Overworld", strL "Cooldowns", strL "Inventory", strL "Cooldown",
   strL "Unclaim", strL "unclaim", strL "Players",
   strL "Chunks", strL "chunks", strL "biomes", strL "Nether", strL "Claims",
   strL "claims", strL "Health", strL "Region", strL "Blocks", strL "Server",
   strL "Player", strL "Worlds",
   strL "Chunk", strL "chunk", strL "Biome", strL "Claim", strL "claim",
   strL "Spawn", strL "Items", strL "Block", strL "World",
   strL "Land", strL "land", strL "Mobs", strL "Mana", strL "Item",
   strL "End", strL "PvP", strL "PVP", strL "Mob", strL "XP"]

/-- Word-boundary test for the position after a match: at end of input or
before a non-word character. -/
def boundaryOK : Str → Bool
  | [] => true
  | c :: _ => !isWordChar c

/-- Try the alternatives of `TERMS_PATTERN` in order at the current
position: a term matches when the input starts with a case-insensitive
copy of it followed by a word boundary.  (The leading `\b` is checked by
the caller, which tracks the preceding character.) -/
def matchTermIn : List Str → Str → Option (Str × Str)
  | [], _ => none
  | t :: ts, s =>
      if toLowerStr (s.take t.length) = toLowerStr t ∧ boundaryOK (s.drop t.length) = true
      then some (s.take t.length, s.drop t.length)
      else matchTermIn ts s

/-- Scanner for `TERMS_PATTERN.sub(repl_term, text)` with the `re.IGNORECASE`
flag: at every position with a word boundary before it (tracked through
`prevW`, the word-character status of the previous character), try the
alternatives longest-first; on a match, `repl_term` checks the lowercased
match against the vocabulary and substitutes a fresh `__MT<n>__` token
(recording the original spelling), otherwise the span is kept.  Scanning
resumes after the matched span of the original text; its last character is
a word character, since every term ends with one, so `prevW` becomes true. -/
def subTermsAux : Nat → Bool → Str → Nat → List (Str × Str) → Str × Nat × List (Str × Str)
  | _, _, [], i, m => ([], i, m)
  | 0, _, s, i, m => (s, i, m)
  | fuel+1, prevW, c :: cs, i, m =>
      match (if prevW then none else matchTermIn sortedTerms (c :: cs)) with
      | some (sp, r) =>
          if toLowerStr sp ∈ lowerTerms then
            let tk := mtTok i
            let next := subTermsAux fuel true r (i + 1) (m ++ [(tk, sp)])
            (tk ++ next.1, next.2)
          else
            let next := subTermsAux fuel true r i m
            (sp ++ next.1, next.2)
      | none =>
          let next := subTermsAux fuel (isWordChar c) cs i m
          (c :: next.1, next.2)

/-- Model of `mask_text`: the placeholder pass followed by the term pass,
sharing one token counter that starts at the current mapping size; returns
the masked text and the extended mapping (Python mutates the dict, which
keeps insertion order; fresh integer suffixes make every key new, so the
mutation is exactly an append). -/
def mask_text (text : Str) (mapping : List (Str × Str)) : Str × List (Str × Str) :=
  let s1 := subPHAux text.length text mapping.length mapping
  let s2 := subTermsAux s1.1.length false s1.1 s1.2.1 s1.2.2
  (s2.1, s2.2.2)

/-- Fuelled model of the Python `str.replace`: replace every non-overlapping
occurrence of `old`, leftmost first.  (For empty `old` Python would insert
`new` at every character boundary; every replacement performed by the
program uses a nonempty token, so that case is never exercised and the
model leaves the string unchanged.) -/
def replaceAllAux : Nat → Str → Str → Str → Str
  | _, [], _, _ => []
  | 0, s, _, _ => s
  | fuel+1, c :: cs, old, new =>
      if old ≠ [] ∧ leadsWith old (c :: cs) = true then
        new ++ replaceAllAux fuel ((c :: cs).drop old.length) old new
      else
        c :: replaceAllAux fuel cs old new

def replaceAll (s old new : Str) : Str := replaceAllAux s.length s old new

/-- Model of `unmask_text`: for every (token, original) pair of the mapping,
in insertion order, replace every occurrence of the token by the original. -/
def unmask_text (text : Str) (mapping : List (Str × Str)) : Str :=
  mapping.foldl (fun acc p => replaceAll acc p.1 p.2) text

/-! ## Translation gateway (`translate_one`) -/

def MAX_RETRIES : Nat := 3

/-- The backoff multiplier `RETRY_BACKOFF = 1.5`, modelled as a rational. -/
def RETRY_BACKOFF : ℚ := 3 / 2

/-- Result of one `translate_one` call: a translated string, the immediate
`RuntimeError` when no engine is available, or `raise last_exc` after all
engines exhausted their retries (`none` is unreachable there, since a
nonempty engine list records at least one failure; Python would raise a
`TypeError` in that impossible state). -/
inductive TOneRes (E : Type) where
  | ok (s : Str)
  | noEngine
  | failed (last : Option E)
deriving DecidableEq

/-- Retry loop of `translate_one` for a single engine, modelled with an
attempt-indexed oracle `fn` standing for the engine call under its timeout
(`fn k` is the outcome of attempt `k`; an `Except.error` covers both an
exception and a timeout).  Returns the translated text if some attempt
succeeds, the list of backoff pauses slept (one after every failed
attempt, starting at 1.0 and multiplied by `RETRY_BACKOFF` each time), and
the last exception recorded. -/
def engineLoop (fn : Nat → Except E Str) :
    Nat → Nat → ℚ → Option E → Option Str × List ℚ × Option E
  | 0, _, _, last => (none, [], last)
  | rem+1, attempt, backoff, last =>
      match fn (attempt + 1) with
      | .ok s => (some s, [], last)
      | .error e =>
          let next := engineLoop fn rem (attempt + 1) (backoff * RETRY_BACKOFF) (some e)
          (next.1, backoff :: next.2.1, next.2.2)

/-- Engine fallback loop of `translate_one`: each engine is given
`MAX_RETRIES` attempts with backoff state reset to 1.0, and the last
exception is threaded across engines. -/
def goEngines : List (Nat → Except E Str) → Option E → Option Str × List ℚ × Option E
  | [], last => (none, [], last)
  | fn :: rest, last =>
      let r := engineLoop fn MAX_RETRIES 0 1 last
      match r.1 with
      | some s => (some s, r.2.1, r.2.2)
      | none =>
          let r2 := goEngines rest r.2.2
          (r2.1, r.2.1 ++ r2.2.1, r2.2.2)

/-- Model of `translate_one`: the engine list stands for the configured
engines (googletrans and/or deep-translator, in that order, when
importable); with no engine it raises immediately, otherwise it tries each
engine in order and finally re-raises the last observed error.  The second
component is the trace of backoff pauses slept, in order. -/
def translate_one (engines : List (Nat → Except E Str)) : TOneRes E × List ℚ :=
  if engines.isEmpty then (.noEngine, [])
  else
    let r := goEngines engines none
    match r.1 with
    | some s => (.ok s, r.2.1)
    | none => (.failed r.2.2, r.2.1)

/-! ## Per-scalar translation (`translate_string`) -/

/-- Matcher for one `__PH<digits>__` or `__MT<digits>__` token at the head
of the input (the two regex alternatives start with distinct characters at
offset 2, and the greedy `\d+` cannot usefully backtrack, so the model is
deterministic).  Returns the rest of the input after the token. -/
def matchTok (s : Str) : Option Str :=
  if leadsWith (strL "__PH") s ∨ leadsWith (strL "__MT") s then
    let r := s.drop 4
    let ds := r.takeWhile isDig
    if ds.isEmpty then none
    else match r.dropWhile isDig with
      | '_' :: '_' :: tail => some tail
      | _ => none
  else none

/-- Fuelled loop for `re.fullmatch(r"(?:(?:__PH\d+__)|(?:__MT\d+__))+", s)`:
consume tokens until the input is exhausted. -/
def tokensOnlyAux : Nat → Str → Bool
  | _, [] => true
  | 0, _ => false
  | fuel+1, c :: cs =>
      match matchTok (c :: cs) with
      | some rest => tokensOnlyAux fuel rest
      | none => false

/-- Full-match test used by `translate_string` to skip strings whose masked
form consists solely of masking tokens (the `+` requires at least one
token, so the empty string does not match). -/
def tokensOnly (s : Str) : Bool := if s.isEmpty then false else tokensOnlyAux s.length s

/-- The process-wide `PROGRESS` counters. -/
structure Tally where
  translated : Nat
  skipped : Nat
deriving DecidableEq, Repr

/-- Attempt loop of `translate_string`: up to `rem` further attempts,
calling the translate_one oracle `g` on the masked text with attempt
indices `a`, `a+1`, …; a successful attempt unmasks the translated text
and counts it, exhaustion returns `last_result` (the unmasked original
masked text, recomputed identically after every failure) and counts the
string as skipped. -/
def attemptLoop (g : Str → Nat → Option Str) (masked : Str) (m : List (Str × Str)) :
    Nat → Nat → Tally → Str × Tally
  | 0, _, t => (unmask_text masked m, { t with skipped := t.skipped + 1 })
  | rem+1, a, t =>
      match g masked a with
      | some tr => (unmask_text tr m, { t with translated := t.translated + 1 })
      | none => attemptLoop g masked m rem (a + 1) t

/-- Model of `translate_string`.  The oracle `g` stands for the
`translate_one` call: `g masked a` is its outcome at attempt `a` (`none`
models a raised exception).  Whitespace-only strings are skipped
unchanged; a masked form consisting solely of tokens is unmasked and
returned without ever consulting the gateway; otherwise up to
`MAX_RETRIES` attempts are made. -/
def translate_string (g : Str → Nat → Option Str) (s : Str) (t : Tally) : Str × Tally :=
  if s.all isSpace then (s, { t with skipped := t.skipped + 1 })
  else
    let mm := mask_text s []
    if tokensOnly mm.1 then (unmask_text mm.1 mm.2, { t with skipped := t.skipped + 1 })
    else attemptLoop g mm.1 mm.2 MAX_RETRIES 1 t

/-! ## The document tree -/

/- A parsed YAML document: mappings with string keys in insertion order,
sequences, string scalars and non-string scalars (numbers, booleans,
null).  Mappings and sequences are given by the mutually inductive
`Entries` and `Items` lists so that all tree recursions are structural. -/
mutual
inductive Node where
  | str (s : Str)
  | num (n : Int)
  | boolv (b : Bool)
  | null
  | map (kvs : Entries)
  | seq (items : Items)
deriving DecidableEq
inductive Entries where
  | nil
  | cons (k : Str) (v : Node) (rest : Entries)
deriving DecidableEq
inductive Items where
  | nil
  | cons (v : Node) (rest : Items)
deriving DecidableEq
end

/- Model of `translate_value`: recurse over mappings and sequences in
order (threading the `PROGRESS` counters), translate string scalars, and
return every other scalar unchanged. -/
mutual
def translate_value (g : Str → Nat → Option Str) : Node → Tally → Node × Tally
  | .str s, t => let r := translate_string g s t; (.str r.1, r.2)
  | .map kvs, t => let r := translate_entries g kvs t; (.map r.1, r.2)
  | .seq xs, t => let r := translate_items g xs t; (.seq r.1, r.2)
  | n, t => (n, t)
def translate_entries (g : Str → Nat → Option Str) : Entries → Tally → Entries × Tally
  | .nil, t => (.nil, t)
  | .cons k v rest, t =>
      let rv := translate_value g v t
      let rr := translate_entries g rest rv.2
      (.cons k rv.1 rr.1, rr.2)
def translate_items (g : Str → Nat → Option Str) : Items → Tally → Items × Tally
  | .nil, t => (.nil, t)
  | .cons v rest, t =>
      let rv := translate_value g v t
      let rr := translate_items g rest rv.2
      (.cons rv.1 rr.1, rr.2)
end

/-! ## Post-fix repair -/

/-- Accumulator loop for the Python `str.split()` with no separator. -/
def splitWSAux : Str → Str → List Str
  | [], acc => if acc.isEmpty then [] else [acc.reverse]
  | c :: r, acc =>
      if isSpace c then
        (if acc.isEmpty then splitWSAux r [] else acc.reverse :: splitWSAux r [])
      else splitWSAux r (c :: acc)

/-- Python `str.split()`: split on runs of whitespace, no empty parts. -/
def splitWS (s : Str) : List Str := splitWSAux s []

/-- Python `" ".join(words)`. -/
def joinSp : List Str → Str
  | [] => []
  | [w] => w
  | w :: ws => w ++ ' ' :: joinSp ws

/-- The single-quote character (written by code to avoid literal-syntax
restrictions). -/
def squote : Char := Char.ofNat 39

/-- Two single quotes, the artifact `post_fix_translated_content` repairs. -/
def sq2 : Str := [squote, squote]

/-- Scanner for `re.sub(r"\b" + re.escape(bare) + r"\b", orig, word)` where
`bare` is nonempty and consists of word characters only (as every pattern
the program builds does): an occurrence must be preceded by a non-word
character or the start (tracked by `prevW`) and followed by a non-word
character or the end; scanning resumes after a replaced span, whose last
character in the original text is a word character. -/
def subWordAux : Nat → Bool → Str → Str → Str → Str
  | _, _, [], _, _ => []
  | 0, _, s, _, _ => s
  | fuel+1, prevW, c :: cs, pat, rep =>
      if prevW = false ∧ pat ≠ [] ∧ leadsWith pat (c :: cs) = true ∧
          boundaryOK ((c :: cs).drop pat.length) = true then
        rep ++ subWordAux fuel true ((c :: cs).drop pat.length) pat rep
      else
        c :: subWordAux fuel (isWordChar c) cs pat rep

/-- The bare form of a word: `re.sub(r"[^\w]", "", w)`. -/
def bareOf (w : Str) : Str := w.filter isWordChar

/-- The registered spelling chosen by `for orig in MINECRAFT_TERMS: if
orig.lower() == lw: … break` — the first vocabulary entry with the given
lowercase.  For the few terms registered under two spellings the winner
depends on the Python set iteration order, which the model fixes to the
listing order. -/
def pickOrig (lw : Str) : Option Str := mineTermsList.find? (fun t => toLowerStr t = lw)

/-- Per-word step of `post_fix_translated_content`: strip non-word
characters, lowercase, and when the result is a protected term rewrite its
boundary-delimited occurrences inside the word back to the registered
spelling. -/
def postfixWord (w : Str) : Str :=
  let bare := bareOf w
  if toLowerStr bare ∈ lowerTerms then
    match pickOrig (toLowerStr bare) with
    | some orig => subWordAux w.length false w bare orig
    | none => w
  else w

/-- The doubled-single-quote repair `s.replace("''", "’") if "''" in s else s`. -/
def quoteFix (s : Str) : Str :=
  if hasSub sq2 s then replaceAll s sq2 (strL "’") else s

/-- String branch of `post_fix_translated_content`: quote repair, split on
whitespace, per-word casing repair, rejoin with single spaces. -/
def post_fix_string (s : Str) : Str :=
  joinSp ((splitWS (quoteFix s)).map postfixWord)

/- Model of `post_fix_translated_content`: recurse over the tree with the
same shape, repairing only string scalars. -/
mutual
def post_fix_translated_content : Node → Node
  | .str s => .str (post_fix_string s)
  | .map kvs => .map (post_fix_entries kvs)
  | .seq xs => .seq (post_fix_items xs)
  | n => n
def post_fix_entries : Entries → Entries
  | .nil => .nil
  | .cons k v rest => .cons k (post_fix_translated_content v) (post_fix_entries rest)
def post_fix_items : Items → Items
  | .nil => .nil
  | .cons v rest => .cons (post_fix_translated_content v) (post_fix_items rest)
end

/- The shape of a tree: the tree with every string scalar emptied.  Two
trees have the same key sets, the same sequence lengths and the same
non-string scalars at every path exactly when their shapes are equal. -/
mutual
def shape : Node → Node
  | .str _ => .str []
  | .map kvs => .map (shapeEntries kvs)
  | .seq xs => .seq (shapeItems xs)
  | n => n
def shapeEntries : Entries → Entries
  | .nil => .nil
  | .cons k v rest => .cons k (shape v) (shapeEntries rest)
def shapeItems : Items → Items
  | .nil => .nil
  | .cons v rest => .cons (shape v) (shapeItems rest)
end

/-! ## Final sanity check (leakage auditor) -/

/- Recursive problem collector of `final_sanity_check`: a `None` value or
a string scalar containing either masking-token sentinel is recorded with
a path expression; mappings extend the path with `.key`, sequences with
`[index]`. -/
mutual
def walkProblems : Node → Str → List Str
  | .null, path => [path ++ strL " is None"]
  | .str s, path =>
      if hasSub (strL "__PH") s || hasSub (strL "__MT") s then
        [path ++ strL " contiene token non sostituiti"]
      else []
  | .map kvs, path => walkEntries kvs path
  | .seq xs, path => walkItems xs 0 path
  | _, _ => []
def walkEntries : Entries → Str → List Str
  | .nil, _ => []
  | .cons k v rest, path =>
      walkProblems v (path ++ '.' :: k) ++ walkEntries rest path
def walkItems : Items → Nat → Str → List Str
  | .nil, _, _ => []
  | .cons v rest, idx, path =>
      walkProblems v (path ++ '[' :: (natStr idx ++ [']'])) ++ walkItems rest (idx + 1) path
end

/-- Model of `final_sanity_check`: walk the tree from path `root` and
succeed exactly when no problem was collected. -/
def final_sanity_check (obj : Node) : Bool :=
  (walkProblems obj (strL "root")).isEmpty

/-- A path into the tree: mapping keys and sequence indices. -/
inductive PathElem where
  | key (k : Str)
  | idx (i : Nat)
deriving DecidableEq

/-- First entry of a mapping with the given key (Python dict lookup). -/
def getEntry : Entries → Str → Option Node
  | .nil, _ => none
  | .cons k v rest, q => if k = q then some v else getEntry rest q

/-- Item of a sequence at the given index. -/
def getItem : Items → Nat → Option Node
  | .nil, _ => none
  | .cons v _, 0 => some v
  | .cons _ rest, n+1 => getItem rest n

/-- Node reached by following a path from the given root. -/
def getAtPath : Node → List PathElem → Option Node
  | n, [] => some n
  | .map kvs, .key k :: rest =>
      match getEntry kvs k with
      | some v => getAtPath v rest
      | none => none
  | .seq xs, .idx i :: rest =>
      match getItem xs i with
      | some v => getAtPath v rest
      | none => none
  | _, _ :: _ => none

/-- The path expression the auditor prints for a path. -/
def renderPath : List PathElem → Str
  | [] => []
  | .key k :: rest => ('.' :: k) ++ renderPath rest
  | .idx i :: rest => ('[' :: (natStr i ++ [']'])) ++ renderPath rest

/-! ## YAML auto-repair (`fix_yaml_content` / `load_yaml_with_fix`) -/

/-- Split on newline characters (helper for the Python `str.splitlines`). -/
def splitNlAux : Str → Str → List Str
  | [], acc => [acc.reverse]
  | c :: r, acc => if c = '\n' then acc.reverse :: splitNlAux r [] else splitNlAux r (c :: acc)

/-- Python `str.splitlines()` restricted to `\n` separators (the separator
the program writes back): like splitting on `\n` but with no line for a
trailing newline, and no lines at all for the empty string. -/
def splitLinesPy (s : Str) : List Str :=
  if s.isEmpty then []
  else
    let ps := splitNlAux s []
    if ps.getLast? = some [] then ps.dropLast else ps

/-- Python `"\n".join(lines)`. -/
def joinNl : List Str → Str
  | [] => []
  | [l] => l
  | l :: ls => l ++ '\n' :: joinNl ls

/-- Python `str.rstrip()`. -/
def rstripWS (s : Str) : Str := (s.reverse.dropWhile (fun c => isSpace c)).reverse

/-- Single-line step of `fix_yaml_content`: pass through comment lines and
lines without a colon; split at the first colon into key and value; pass
through empty, quoted and block-scalar values; quote-wrap values containing
a reserved character (`&`, `:` or a single quote), preferring single-quote
wrapping with doubled inner quotes when the value has a single quote but no
double quote, else double-quote wrapping with backslash escaping. -/
def fixYamlLine (line : Str) : Str :=
  let stripped := line.dropWhile (fun c => isSpace c)
  let indent := line.take (line.length - stripped.length)
  if leadsWith (strL "#") stripped = true ∨ ¬ ':' ∈ stripped then line
  else
    let key_part := stripped.takeWhile (fun c => c ≠ ':')
    let val_part := (stripped.dropWhile (fun c => c ≠ ':')).drop 1
    let key := rstripWS key_part
    let val := val_part.dropWhile (fun c => isSpace c)
    match val with
    | [] => line
    | c :: _ =>
        if c = squote ∨ c = '"' ∨ c = '|' ∨ c = '>' then line
        else if '&' ∈ val ∨ ':' ∈ val ∨ squote ∈ val then
          let safe :=
            if squote ∈ val ∧ ¬ '"' ∈ val then
              squote :: (replaceAll val [squote] sq2 ++ [squote])
            else
              '"' :: (replaceAll (replaceAll val (strL "\\") (strL "\\\\")) ['"'] (strL "\\\"") ++ ['"'])
          indent ++ key ++ strL ": " ++ safe
        else line

/-- Model of `fix_yaml_content`: repair line by line and rejoin. -/
def fix_yaml_content (content : Str) : Str :=
  joinNl ((splitLinesPy content).map fixYamlLine)

/-- Model of `load_yaml_with_fix`, with the YAML library abstracted as a
parse oracle: return the first successful parse of the raw text or of the
repaired text, and re-raise the second failure otherwise (backup creation
and logging are I/O and are not modelled). -/
def load_yaml_with_fix (parse : Str → Except E Node) (raw : Str) : Except E Node :=
  match parse raw with
  | .ok v => .ok v
  | .error _ =>
      match parse (fix_yaml_content raw) with
      | .ok v => .ok v
      | .error e2 => .error e2

/-! ## Shared concrete artifacts for the claims -/

/-- The always-failing translate_one oracle: every attempt raises. -/
def gNone : Str → Nat → Option Str := fun _ _ => none

/-- Per-scalar composition of phases b and c of the main flow: translation
followed by post-fix repair (the counters start from zero). -/
def pipeOne (g : Str → Nat → Option Str) (s : Str) : Str :=
  post_fix_string (translate_string g s ⟨0, 0⟩).1

/-- Case-sensitive whole-word occurrence test (both neighbours of the
occurrence are non-word characters or the string edges); used to state
term-fidelity properties. -/
def hasWordAux (ci : Bool) : Nat → Bool → Str → Str → Bool
  | _, _, [], _ => false
  | 0, _, _, _ => false
  | fuel+1, prevW, c :: cs, pat =>
      let cand := (c :: cs).take pat.length
      let matchesP :=
        if ci then toLowerStr cand = toLowerStr pat else cand = pat
      if prevW = false ∧ pat ≠ [] ∧ matchesP ∧ boundaryOK ((c :: cs).drop pat.length) = true
      then true
      else hasWordAux ci fuel (isWordChar c) cs pat

/-- Whole-word occurrence, exact spelling. -/
def hasWordCS (pat s : Str) : Bool := hasWordAux false s.length false s pat

/-- Whole-word occurrence, case-insensitive. -/
def hasWordCI (pat s : Str) : Bool := hasWordAux true s.length false s pat

/-! ## Basic lemmas about the string primitives -/

theorem leadsWith_iff (p s : Str) : leadsWith p s = true ↔ ∃ r, s = p ++ r := by
  induction p generalizing s with
  | nil => simp [leadsWith]
  | cons a as ih =>
    cases s with
    | nil => simp [leadsWith]
    | cons b bs =>
      simp only [leadsWith, Bool.and_eq_true, decide_eq_true_eq, ih, List.cons_append,
        List.cons.injEq]
      constructor
      · rintro ⟨h1, r, h2⟩; exact ⟨r, h1.symm, h2⟩
      · rintro ⟨r, h1, h2⟩; exact ⟨h1.symm, r, h2⟩

theorem hasSub_iff (p s : Str) : hasSub p s = true ↔ ∃ x y, s = x ++ p ++ y := by
  induction s with
  | nil =>
    simp only [hasSub, List.isEmpty_iff]
    constructor
    · rintro rfl; exact ⟨[], [], rfl⟩
    · rintro ⟨x, y, h⟩
      rcases x with _ | ⟨d, ds⟩
      · rcases p with _ | ⟨e, es⟩
        · rfl
        · simp at h
      · simp at h
  | cons c cs ih =>
    simp only [hasSub, Bool.or_eq_true, leadsWith_iff, ih]
    constructor
    · rintro (⟨r, hr⟩ | ⟨x, y, hxy⟩)
      · exact ⟨[], r, by simp [hr]⟩
      · exact ⟨c :: x, y, by simp [hxy]⟩
    · rintro ⟨x, y, hxy⟩
      rcases x with _ | ⟨d, ds⟩
      · exact Or.inl ⟨y, by simpa using hxy⟩
      · simp only [List.cons_append, List.cons.injEq] at hxy
        exact Or.inr ⟨ds, y, hxy.2⟩

theorem hasSub_of_eq {p s : Str} (x y : Str) (h : s = x ++ p ++ y) : hasSub p s = true :=
  (hasSub_iff p s).2 ⟨x, y, h⟩

theorem hasSub_mono_left {p x : Str} (y : Str) (h : hasSub p x = true) :
    hasSub p (x ++ y) = true := by
  obtain ⟨a, b, rfl⟩ := (hasSub_iff p x).1 h
  exact hasSub_of_eq a (b ++ y) (by simp)

theorem hasSub_mono_right {p y : Str} (x : Str) (h : hasSub p y = true) :
    hasSub p (x ++ y) = true := by
  obtain ⟨a, b, rfl⟩ := (hasSub_iff p y).1 h
  exact hasSub_of_eq (x ++ a) b (by simp)

theorem append_singleton_inj {a b : Str} {x y : Char} (h : a ++ [x] = b ++ [y]) :
    a = b ∧ x = y := by
  have hr := congrArg List.reverse h
  simp only [List.reverse_append, List.reverse_cons, List.reverse_nil, List.nil_append,
    List.singleton_append, List.cons.injEq] at hr
  exact ⟨by have := congrArg List.reverse hr.2; simpa using this, hr.1⟩

theorem cons_mid_unique {c : Char} : ∀ {u v u' v' : Str},
    u ++ c :: v = u' ++ c :: v' → c ∉ u → c ∉ v → u = u' ∧ v = v'
  | [], v, [], v', h, _, _ => by simpa using h
  | [], v, a' :: u', v', h, _, hv => by
      simp only [List.nil_append, List.cons_append, List.cons.injEq] at h
      refine absurd ?_ hv
      rw [h.2]
      exact List.mem_append_right u' (List.mem_cons_self c v')
  | a :: u, v, [], v', h, hu, _ => by
      simp only [List.cons_append, List.nil_append, List.cons.injEq] at h
      refine absurd ?_ hu
      rw [h.1]
      exact List.mem_cons_self c u
  | a :: u, v, a' :: u', v', h, hu, hv => by
      simp only [List.cons_append, List.cons.injEq] at h
      have ih := cons_mid_unique h.2 (fun hm => hu (List.mem_cons_of_mem a hm)) hv
      exact ⟨by rw [h.1, ih.1], ih.2⟩

/-! ## Shape preservation (tree walker and post-fix repairer) -/

mutual
theorem tv_shape (g : Str → Nat → Option Str) :
    ∀ (n : Node) (t : Tally), shape (translate_value g n t).1 = shape n
  | .str s, t => by simp [translate_value, shape]
  | .num n, t => by simp [translate_value, shape]
  | .boolv b, t => by simp [translate_value, shape]
  | .null, t => by simp [translate_value, shape]
  | .map kvs, t => by simp [translate_value, shape, tve_shape g kvs t]
  | .seq xs, t => by simp [translate_value, shape, tvi_shape g xs t]
theorem tve_shape (g : Str → Nat → Option Str) :
    ∀ (kvs : Entries) (t : Tally), shapeEntries (translate_entries g kvs t).1 = shapeEntries kvs
  | .nil, t => by simp [translate_entries, shapeEntries]
  | .cons k v rest, t => by
      simp [translate_entries, shapeEntries, tv_shape g v t,
        tve_shape g rest (translate_value g v t).2]
theorem tvi_shape (g : Str → Nat → Option Str) :
    ∀ (xs : Items) (t : Tally), shapeItems (translate_items g xs t).1 = shapeItems xs
  | .nil, t => by simp [translate_items, shapeItems]
  | .cons v rest, t => by
      simp [translate_items, shapeItems, tv_shape g v t,
        tvi_shape g rest (translate_value g v t).2]
end

mutual
theorem pf_shape : ∀ n : Node, shape (post_fix_translated_content n) = shape n
  | .str s => by simp [post_fix_translated_content, shape]
  | .num n => by simp [post_fix_translated_content, shape]
  | .boolv b => by simp [post_fix_translated_content, shape]
  | .null => by simp [post_fix_translated_content, shape]
  | .map kvs => by simp [post_fix_translated_content, shape, pfe_shape kvs]
  | .seq xs => by simp [post_fix_translated_content, shape, pfi_shape xs]
theorem pfe_shape : ∀ kvs : Entries, shapeEntries (post_fix_entries kvs) = shapeEntries kvs
  | .nil => by simp [post_fix_entries, shapeEntries]
  | .cons k v rest => by simp [post_fix_entries, shapeEntries, pf_shape v, pfe_shape rest]
theorem pfi_shape : ∀ xs : Items, shapeItems (post_fix_items xs) = shapeItems xs
  | .nil => by simp [post_fix_items, shapeItems]
  | .cons v rest => by simp [post_fix_items, shapeItems, pf_shape v, pfi_shape rest]
end

/-- C2: Shape preservation — for every input tree, both the tree-walking
translation step (`translate_value`, under an arbitrary gateway oracle and
counter state) and the post-fix step (`post_fix_translated_content`)
return a tree with identical mapping key lists, identical sequence
lengths and identical non-string scalar values at every path: the shapes
(the trees with all string scalars blanked) coincide, so only string
scalars may change. -/
theorem claim_C2_shape_preservation :
    ∀ (g : Str → Nat → Option Str) (n : Node) (t : Tally),
      shape ((translate_value g n t).1) = shape n ∧
      shape (post_fix_translated_content n) = shape n :=
  fun g n t => ⟨tv_shape g n t, pf_shape n⟩

/-! ## Gateway retry/fallback contract -/

/-- Backoff trace of engines failing all of their attempts: pauses 1, 1.5
and 2.25 per engine, with the backoff state reset between engines. -/
def allFailSleeps : Nat → List ℚ
  | 0 => []
  | n+1 => [1, RETRY_BACKOFF, RETRY_BACKOFF * RETRY_BACKOFF] ++ allFailSleeps n

theorem engineLoop_allfail {E : Type} (fn : Nat → Except E Str) (last : Option E)
    (e1 e2 e3 : E) (h1 : fn 1 = .error e1) (h2 : fn 2 = .error e2) (h3 : fn 3 = .error e3) :
    engineLoop fn MAX_RETRIES 0 1 last =
      (none, [1, RETRY_BACKOFF, RETRY_BACKOFF * RETRY_BACKOFF], some e3) := by
  simp [MAX_RETRIES, engineLoop, h1, h2, h3, one_mul]

theorem goEngines_allfail {E : Type} :
    ∀ (init : List (Nat → Except E Str)) (fnL : Nat → Except E Str) (last : Option E) (eL : E),
      (∀ fn ∈ init ++ [fnL], ∀ k, 1 ≤ k → k ≤ MAX_RETRIES → ∃ e, fn k = Except.error e) →
      fnL MAX_RETRIES = Except.error eL →
      goEngines (init ++ [fnL]) last =
        (none, allFailSleeps (init ++ [fnL]).length, some eL)
  | [], fnL, last, eL, hf, hL => by
      obtain ⟨d1, h1⟩ := hf fnL (by simp) 1 (by omega) (by simp [MAX_RETRIES])
      obtain ⟨d2, h2⟩ := hf fnL (by simp) 2 (by omega) (by simp [MAX_RETRIES])
      have hL3 : fnL 3 = Except.error eL := by simpa [MAX_RETRIES] using hL
      simp [goEngines, engineLoop_allfail fnL last d1 d2 eL h1 h2 hL3, allFailSleeps]
  | fn :: init, fnL, last, eL, hf, hL => by
      obtain ⟨d1, h1⟩ := hf fn (by simp) 1 (by omega) (by simp [MAX_RETRIES])
      obtain ⟨d2, h2⟩ := hf fn (by simp) 2 (by omega) (by simp [MAX_RETRIES])
      obtain ⟨d3, h3⟩ := hf fn (by simp) 3 (by omega) (by simp [MAX_RETRIES])
      have ih := goEngines_allfail init fnL (some d3) eL
        (fun f hfm k hk1 hk2 => hf f (List.mem_cons_of_mem fn hfm) k hk1 hk2) hL
      simp [goEngines, engineLoop_allfail fn last d1 d2 d3 h1 h2 h3, ih, allFailSleeps]

theorem engineLoop_success {E : Type} (fn : Nat → Except E Str) (last : Option E) (j : Nat)
    (s : Str) (hj : j < MAX_RETRIES)
    (hf : ∀ k, 1 ≤ k → k ≤ j → ∃ e, fn k = Except.error e)
    (hs : fn (j + 1) = Except.ok s) :
    (engineLoop fn MAX_RETRIES 0 1 last).1 = some s ∧
    (engineLoop fn MAX_RETRIES 0 1 last).2.1 =
      ([1, RETRY_BACKOFF, RETRY_BACKOFF * RETRY_BACKOFF] : List ℚ).take j := by
  simp only [MAX_RETRIES] at hj
  interval_cases j
  · simp [MAX_RETRIES, engineLoop, hs]
  · obtain ⟨d1, h1⟩ := hf 1 (by omega) (by omega)
    simp [MAX_RETRIES, engineLoop, h1, hs, one_mul]
  · obtain ⟨d1, h1⟩ := hf 1 (by omega) (by omega)
    obtain ⟨d2, h2⟩ := hf 2 (by omega) (by omega)
    simp [MAX_RETRIES, engineLoop, h1, h2, hs, one_mul]

/-- C7: Gateway failure contract — `translate_one` raises immediately when
no translation engine is configured; it tries each configured engine in
order with up to `MAX_RETRIES` attempts per engine, pausing after every
failed attempt with a backoff that starts at 1 and grows by the factor
`RETRY_BACKOFF = 1.5` per attempt and is reset when advancing to the next
engine; and when every engine exhausts all its attempts it raises the last
observed error (the error of the last attempt of the last engine). -/
theorem claim_C7_gateway_failure_contract (E : Type) :
    (translate_one ([] : List (Nat → Except E Str)) = (TOneRes.noEngine, []))
  ∧ (∀ (init : List (Nat → Except E Str)) (fnL : Nat → Except E Str) (eL : E),
      (∀ fn ∈ init ++ [fnL], ∀ k, 1 ≤ k → k ≤ MAX_RETRIES → ∃ e, fn k = Except.error e) →
      fnL MAX_RETRIES = Except.error eL →
      translate_one (init ++ [fnL]) =
        (TOneRes.failed (some eL), allFailSleeps (init ++ [fnL]).length))
  ∧ (∀ (fn : Nat → Except E Str) (rest : List (Nat → Except E Str)) (j : Nat) (s : Str),
      j < MAX_RETRIES →
      (∀ k, 1 ≤ k → k ≤ j → ∃ e, fn k = Except.error e) →
      fn (j + 1) = Except.ok s →
      translate_one (fn :: rest) =
        (TOneRes.ok s, ([1, RETRY_BACKOFF, RETRY_BACKOFF * RETRY_BACKOFF] : List ℚ).take j)) := by
  refine ⟨by simp [translate_one], ?_, ?_⟩
  · intro init fnL eL hf hL
    have h := goEngines_allfail init fnL none eL hf hL
    simp [translate_one, h]
  · intro fn rest j s hj hf hs
    have h := engineLoop_success fn none j s hj hf hs
    simp [translate_one, goEngines, h.1, h.2]

/-- Witness for C7: two engines, every attempt failing; the call reports
the third error of the second engine and sleeps the doubled backoff
pattern. -/
theorem claim_C7_gateway_failure_contract_witness :
    translate_one (E := Nat) [fun k => Except.error k, fun k => Except.error (10 + k)] =
      (TOneRes.failed (some 13), allFailSleeps 2) := by
  have h := (claim_C7_gateway_failure_contract Nat).2.1
    [fun k => Except.error k] (fun k => Except.error (10 + k)) 13
    (by
      intro fn hm k hk1 hk2
      simp only [List.cons_append, List.nil_append, List.mem_cons, List.not_mem_nil,
        or_false, List.mem_singleton] at hm
      rcases hm with rfl | rfl
      · exact ⟨k, rfl⟩
      · exact ⟨10 + k, rfl⟩)
    rfl
  simpa using h

/-! ## Leakage auditor -/

theorem walkEntries_sub : ∀ (kvs : Entries) (k : Str) (v : Node) (p : Str),
    getEntry kvs k = some v →
    ∀ x ∈ walkProblems v (p ++ '.' :: k), x ∈ walkEntries kvs p
  | .nil, k, v, p, h => by simp [getEntry] at h
  | .cons k' v' rest, k, v, p, h => by
      simp only [getEntry] at h
      split at h
      · next heq =>
        obtain rfl := Option.some.injEq _ _ ▸ h
        intro x hx
        simp only [walkEntries, List.mem_append]
        exact Or.inl (by rwa [heq])
      · intro x hx
        simp only [walkEntries, List.mem_append]
        exact Or.inr (walkEntries_sub rest k v p h x hx)

theorem walkItems_sub : ∀ (xs : Items) (i : Nat) (v : Node) (idx : Nat) (p : Str),
    getItem xs i = some v →
    ∀ x ∈ walkProblems v (p ++ '[' :: (natStr (idx + i) ++ [']'])), x ∈ walkItems xs idx p
  | .nil, i, v, idx, p, h => by simp [getItem] at h
  | .cons v' rest, 0, v, idx, p, h => by
      obtain rfl : v' = v := by simpa [getItem] using h
      intro x hx
      simp only [walkItems, List.mem_append]
      exact Or.inl (by simpa using hx)
  | .cons v' rest, i+1, v, idx, p, h => by
      simp only [getItem] at h
      intro x hx
      simp only [walkItems, List.mem_append]
      refine Or.inr (walkItems_sub rest i v (idx + 1) p h x ?_)
      have : idx + 1 + i = idx + (i + 1) := by omega
      rwa [this]

theorem walk_sub : ∀ (q : List PathElem) (obj sub : Node) (p : Str),
    getAtPath obj q = some sub →
    ∀ x ∈ walkProblems sub (p ++ renderPath q), x ∈ walkProblems obj p
  | [], obj, sub, p, h => by
      obtain rfl : obj = sub := by simpa [getAtPath] using h
      simp [renderPath]
  | .key k :: rest, obj, sub, p, h => by
      cases obj with
      | map kvs =>
        simp only [getAtPath] at h
        cases hE : getEntry kvs k with
        | none => rw [hE] at h; simp at h
        | some v =>
          rw [hE] at h
          intro x hx
          have hx' : x ∈ walkProblems sub ((p ++ '.' :: k) ++ renderPath rest) := by
            simpa [renderPath, List.append_assoc] using hx
          exact walkEntries_sub kvs k v p hE x (walk_sub rest v sub (p ++ '.' :: k) h x hx')
      | str s => simp [getAtPath] at h
      | num n => simp [getAtPath] at h
      | boolv b => simp [getAtPath] at h
      | null => simp [getAtPath] at h
      | seq xs => simp [getAtPath] at h
  | .idx i :: rest, obj, sub, p, h => by
      cases obj with
      | seq xs =>
        simp only [getAtPath] at h
        cases hE : getItem xs i with
        | none => rw [hE] at h; simp at h
        | some v =>
          rw [hE] at h
          intro x hx
          have hx' : x ∈ walkProblems sub ((p ++ '[' :: (natStr i ++ [']'])) ++ renderPath rest) := by
            simpa [renderPath, List.append_assoc] using hx
          have hm := walk_sub rest v sub (p ++ '[' :: (natStr i ++ [']'])) h x hx'
          have h0 : (0 : Nat) + i = i := by omega
          exact walkItems_sub xs i v 0 p hE x (by rwa [h0])
      | str s => simp [getAtPath] at h
      | num n => simp [getAtPath] at h
      | boolv b => simp [getAtPath] at h
      | null => simp [getAtPath] at h
      | map kvs => simp [getAtPath] at h

/-- C8: Leakage audit — `final_sanity_check` walks the whole tree and
returns true exactly when no problems were collected, and any string
scalar reachable at some path that contains a masking-token sentinel
(either `__PH` or `__MT`) is recorded as a problem named by the path
expression starting at `root`, which forces the failure result. -/
theorem claim_C8_leakage_audit (obj : Node) :
    (final_sanity_check obj = true ↔ walkProblems obj (strL "root") = [])
  ∧ (∀ (q : List PathElem) (s : Str), getAtPath obj q = some (.str s) →
      (hasSub (strL "__PH") s = true ∨ hasSub (strL "__MT") s = true) →
      (strL "root" ++ renderPath q ++ strL " contiene token non sostituiti")
          ∈ walkProblems obj (strL "root")
        ∧ final_sanity_check obj = false) := by
  constructor
  · simp [final_sanity_check, List.isEmpty_iff]
  · intro q s hq hsub
    have hloc : (strL "root" ++ renderPath q ++ strL " contiene token non sostituiti")
        ∈ walkProblems (Node.str s) (strL "root" ++ renderPath q) := by
      have : (hasSub (strL "__PH") s || hasSub (strL "__MT") s) = true := by
        rcases hsub with h | h <;> simp [h]
      simp [walkProblems, this]
    have hmem := walk_sub q obj (Node.str s) (strL "root") hq _ hloc
    refine ⟨hmem, ?_⟩
    have hne : walkProblems obj (strL "root") ≠ [] := by
      intro hemp
      rw [hemp] at hmem
      exact (List.not_mem_nil _) hmem
    simp [final_sanity_check, List.isEmpty_iff, hne]

/-- Witness for C8: the crafted tree with a leaked token at
`root.messages.welcome` is reported at exactly that path and fails the
check. -/
theorem claim_C8_leakage_audit_witness :
    (strL "root.messages.welcome contiene token non sostituiti")
        ∈ walkProblems
            (Node.map (.cons (strL "messages")
              (Node.map (.cons (strL "welcome") (Node.str (strL "hi __PH0__")) .nil)) .nil))
            (strL "root")
      ∧ final_sanity_check
          (Node.map (.cons (strL "messages")
            (Node.map (.cons (strL "welcome") (Node.str (strL "hi __PH0__")) .nil)) .nil)) = false := by
  have h := (claim_C8_leakage_audit
      (Node.map (.cons (strL "messages")
        (Node.map (.cons (strL "welcome") (Node.str (strL "hi __PH0__")) .nil)) .nil))).2
    [.key (strL "messages"), .key (strL "welcome")] (strL "hi __PH0__")
    (by decide) (Or.inl (by decide))
  exact ⟨by simpa using h.1, h.2⟩

/-! ## YAML auto-repair conditioning -/

/-- The leading whitespace of a line. -/
def yIndent (line : Str) : Str :=
  line.take (line.length - (line.dropWhile (fun c => isSpace c)).length)

/-- The stripped line. -/
def yStripped (line : Str) : Str := line.dropWhile (fun c => isSpace c)

/-- The key part of a line: up to the first colon, right-stripped. -/
def yKey (line : Str) : Str := rstripWS ((yStripped line).takeWhile (fun c => c ≠ ':'))

/-- The value part of a line: after the first colon, left-stripped. -/
def yVal (line : Str) : Str :=
  (((yStripped line).dropWhile (fun c => c ≠ ':')).drop 1).dropWhile (fun c => isSpace c)

/-- A value the fixer passes through: empty, already quoted, or a block
scalar. -/
def yPassVal (v : Str) : Bool :=
  match v with
  | [] => true
  | c :: _ => c = squote || c = '"' || c = '|' || c = '>'

/-- A value containing one of the reserved characters `&`, `:`, `'`. -/
def yReserved (v : Str) : Bool := ('&' ∈ v : Bool) || (':' ∈ v : Bool) || (squote ∈ v : Bool)

/-- The quote-wrapping the fixer applies: single quotes with doubling when
the value has a single quote but no double quote, else double quotes with
backslash escaping. -/
def yWrap (v : Str) : Str :=
  if squote ∈ v ∧ ¬ '"' ∈ v then
    squote :: (replaceAll v [squote] sq2 ++ [squote])
  else
    '"' :: (replaceAll (replaceAll v (strL "\\") (strL "\\\\")) ['"'] (strL "\\\"") ++ ['"'])

/-- C9: YAML auto-repair conditioning — a line is rewritten by
quote-wrapping its scalar value exactly when the value contains one of the
reserved characters and is not already quoted, not empty and not a block
scalar; comment lines and lines without a colon pass through unchanged;
and when the repaired text still fails to parse, the loader re-raises that
parse error. -/
theorem claim_C9_yaml_autorepair :
    (∀ line : Str,
      leadsWith (strL "#") (yStripped line) = true ∨ ¬ ':' ∈ yStripped line →
      fixYamlLine line = line)
  ∧ (∀ line : Str, ':' ∈ yStripped line →
      leadsWith (strL "#") (yStripped line) = false →
      yPassVal (yVal line) = true →
      fixYamlLine line = line)
  ∧ (∀ line : Str, ':' ∈ yStripped line →
      leadsWith (strL "#") (yStripped line) = false →
      yPassVal (yVal line) = false →
      yReserved (yVal line) = false →
      fixYamlLine line = line)
  ∧ (∀ line : Str, ':' ∈ yStripped line →
      leadsWith (strL "#") (yStripped line) = false →
      yPassVal (yVal line) = false →
      yReserved (yVal line) = true →
      fixYamlLine line = yIndent line ++ yKey line ++ strL ": " ++ yWrap (yVal line))
  ∧ (∀ (E : Type) (parse : Str → Except E Node) (raw : Str) (e1 e2 : E),
      parse raw = Except.error e1 →
      parse (fix_yaml_content raw) = Except.error e2 →
      load_yaml_with_fix parse raw = Except.error e2) := by
  have hval : ∀ line : Str,
      (((line.dropWhile (fun c => isSpace c)).dropWhile (fun c => c ≠ ':')).drop 1).dropWhile
        (fun c => isSpace c) = yVal line := fun _ => rfl
  refine ⟨?_, ?_, ?_, ?_, ?_⟩
  · intro line h
    simp only [fixYamlLine]
    rw [if_pos]
    simpa [yStripped] using h
  · intro line hc hcm hpass
    simp only [fixYamlLine]
    rw [if_neg (by
      simp only [yStripped] at hcm hc
      simp [hcm, hc])]
    rw [hval]
    split
    · rfl
    · next c tail heq =>
      rw [heq] at hpass
      have hp := hpass
      simp [yPassVal] at hp
      rw [if_pos (by tauto)]
  · intro line hc hcm hpass hres
    simp only [fixYamlLine]
    rw [if_neg (by
      simp only [yStripped] at hcm hc
      simp [hcm, hc])]
    rw [hval]
    split
    · rfl
    · next c tail heq =>
      rw [heq] at hpass hres
      have hp := hpass
      simp [yPassVal] at hp
      have hr := hres
      simp [yReserved] at hr
      have hA : ¬(c = squote ∨ c = '\"' ∨ c = '|' ∨ c = '>') := by tauto
      have hB : ¬('&' ∈ c :: tail ∨ ':' ∈ c :: tail ∨ squote ∈ c :: tail) := by
        intro hx
        simp only [List.mem_cons] at hx
        tauto
      rw [heq, if_neg hA, if_neg hB]
  · intro line hc hcm hpass hres
    simp only [fixYamlLine]
    rw [if_neg (by
      simp only [yStripped] at hcm hc
      simp [hcm, hc])]
    rw [hval]
    split
    · next heq =>
      rw [heq] at hres
      simp [yReserved] at hres
    · next c tail heq =>
      rw [heq] at hpass hres
      have hp := hpass
      simp [yPassVal] at hp
      have hr := hres
      simp [yReserved] at hr
      have hA : ¬(c = squote ∨ c = '\"' ∨ c = '|' ∨ c = '>') := by tauto
      have hB : '&' ∈ c :: tail ∨ ':' ∈ c :: tail ∨ squote ∈ c :: tail := by
        simp only [List.mem_cons]
        tauto
      rw [heq, if_neg hA, if_pos hB]
      simp only [yIndent, yKey, yWrap, yStripped]
  · intro E parse raw e1 e2 h1 h2
    simp [load_yaml_with_fix, h1, h2]

/-- Witness for C9: a value with an ampersand is double-quote wrapped, a
quoted value passes through, a comment passes through, and a doubly
failing parse re-raises the second error. -/
theorem claim_C9_yaml_autorepair_witness :
    (fixYamlLine (strL "  key: a & b") = strL "  key: \"a & b\"")
  ∧ (fixYamlLine (strL "  key: \x27quoted: x\x27") = strL "  key: \x27quoted: x\x27")
  ∧ (fixYamlLine (strL "# comment: &") = strL "# comment: &")
  ∧ (load_yaml_with_fix (E := Nat)
      (fun s => Except.error s.length)
      (strL "k: a & b") = Except.error 10) := by
  refine ⟨?_, ?_, ?_, ?_⟩
  · have h := claim_C9_yaml_autorepair.2.2.2.1 (strL "  key: a & b")
      (by decide) (by decide) (by decide) (by decide)
    rw [h]; decide
  · exact claim_C9_yaml_autorepair.2.1 (strL "  key: \x27quoted: x\x27")
      (by decide) (by decide) (by decide)
  · exact claim_C9_yaml_autorepair.1 (strL "# comment: &") (Or.inl (by decide))
  · exact claim_C9_yaml_autorepair.2.2.2.2 Nat
      (fun s => Except.error s.length)
      (strL "k: a & b") 8 10 rfl rfl

/-! ## Post-fix whitespace normalization -/

theorem splitWSAux_words : ∀ (s acc : Str), (∀ c ∈ acc, isSpace c = false) →
    ∀ w ∈ splitWSAux s acc, w ≠ [] ∧ ∀ c ∈ w, isSpace c = false
  | [], acc, hacc => by
      simp only [splitWSAux]
      split
      · simp
      · next hne =>
        intro w hw
        simp only [List.mem_singleton] at hw
        subst hw
        refine ⟨by simpa using fun h => hne (by simp [h, List.isEmpty_iff]), ?_⟩
        intro c hc
        exact hacc c (List.mem_reverse.1 hc)
  | c :: r, acc, hacc => by
      simp only [splitWSAux]
      split
      · next hsp =>
        split
        · exact splitWSAux_words r [] (by simp)
        · next hne =>
          intro w hw
          rcases List.mem_cons.1 hw with rfl | hw'
          · refine ⟨by simpa using fun h => hne (by simp [h, List.isEmpty_iff]), ?_⟩
            intro d hd
            exact hacc d (List.mem_reverse.1 hd)
          · exact splitWSAux_words r [] (by simp) w hw'
      · next hsp =>
        refine splitWSAux_words r (c :: acc) ?_
        intro d hd
        rcases List.mem_cons.1 hd with rfl | hd'
        · simpa using hsp
        · exact hacc d hd'

theorem splitWS_words (s : Str) : ∀ w ∈ splitWS s, w ≠ [] ∧ ∀ c ∈ w, isSpace c = false :=
  splitWSAux_words s [] (by simp)

theorem splitWSAux_run : ∀ (w r acc : Str), (∀ c ∈ w, isSpace c = false) →
    splitWSAux (w ++ r) acc = splitWSAux r (w.reverse ++ acc)
  | [], r, acc, _ => by simp [splitWSAux]
  | c :: w, r, acc, hw => by
      have hc : isSpace c = false := hw c (List.mem_cons_self c w)
      have ih := splitWSAux_run w r (c :: acc) (fun d hd => hw d (List.mem_cons_of_mem c hd))
      simp [splitWSAux, hc, ih]

theorem splitWS_joinSp : ∀ ws : List Str,
    (∀ w ∈ ws, w ≠ [] ∧ ∀ c ∈ w, isSpace c = false) → splitWS (joinSp ws) = ws
  | [], _ => by simp [splitWS, joinSp, splitWSAux]
  | [w], h => by
      obtain ⟨hne, hns⟩ := h w (List.mem_singleton.2 rfl)
      have : splitWSAux (w ++ []) [] = splitWSAux [] (w.reverse ++ []) :=
        splitWSAux_run w [] [] hns
      simp only [splitWS, joinSp]
      rw [← List.append_nil w, this]
      simp [splitWSAux, List.isEmpty_iff, hne]
  | w :: w2 :: ws, h => by
      obtain ⟨hne, hns⟩ := h w (List.mem_cons_self _ _)
      have hrest : ∀ v ∈ w2 :: ws, v ≠ [] ∧ ∀ c ∈ v, isSpace c = false :=
        fun v hv => h v (List.mem_cons_of_mem w hv)
      simp only [splitWS, joinSp]
      rw [splitWSAux_run w (' ' :: joinSp (w2 :: ws)) [] hns]
      have hsp : isSpace ' ' = true := by decide
      simp only [splitWSAux, hsp, if_true]
      rw [if_neg (by simpa [List.isEmpty_iff] using hne)]
      have ih := splitWS_joinSp (w2 :: ws) hrest
      simp only [splitWS] at ih
      simp [ih]

theorem subWordAux_chars (P : Char → Prop) :
    ∀ (fuel : Nat) (prevW : Bool) (s pat rep : Str), (∀ c ∈ s, P c) → (∀ c ∈ rep, P c) →
      ∀ c ∈ subWordAux fuel prevW s pat rep, P c
  | _, _, [], _, _, _, _ => by simp [subWordAux]
  | 0, _, c :: cs, _, _, hs, _ => by simpa [subWordAux] using hs
  | fuel+1, prevW, c :: cs, pat, rep, hs, hr => by
      simp only [subWordAux]
      split
      · intro d hd
        rcases List.mem_append.1 hd with hd' | hd'
        · exact hr d hd'
        · exact subWordAux_chars P fuel true ((c :: cs).drop pat.length) pat rep
            (fun e he => hs e (List.mem_of_mem_drop he)) hr d hd'
      · intro d hd
        rcases List.mem_cons.1 hd with rfl | hd'
        · exact hs d (by simp)
        · exact subWordAux_chars P fuel (isWordChar c) cs pat rep
            (fun e he => hs e (List.mem_cons_of_mem c he)) hr d hd'

theorem subWordAux_ne_nil : ∀ (fuel : Nat) (prevW : Bool) (s pat rep : Str),
    s ≠ [] → rep ≠ [] → subWordAux fuel prevW s pat rep ≠ []
  | _, _, [], _, _, hs, _ => absurd rfl hs
  | 0, _, c :: cs, _, _, _, _ => by simp [subWordAux]
  | fuel+1, prevW, c :: cs, pat, rep, _, hrep => by
      simp only [subWordAux]
      split
      · simp [hrep]
      · simp

theorem mineTerms_words : ∀ t ∈ mineTermsList, t ≠ [] ∧ ∀ c ∈ t, isSpace c = false := by
  decide

theorem postfixWord_keeps (w : Str) (hne : w ≠ []) (hns : ∀ c ∈ w, isSpace c = false) :
    postfixWord w ≠ [] ∧ ∀ c ∈ postfixWord w, isSpace c = false := by
  by_cases hmem : toLowerStr (bareOf w) ∈ lowerTerms
  · have hrw : postfixWord w = match pickOrig (toLowerStr (bareOf w)) with
        | some orig => subWordAux w.length false w (bareOf w) orig
        | none => w := by
      simp [postfixWord, hmem]
    rw [hrw]
    cases hpick : pickOrig (toLowerStr (bareOf w)) with
    | none => exact ⟨hne, hns⟩
    | some orig =>
      have horig := mineTerms_words orig (List.mem_of_find?_eq_some hpick)
      exact ⟨subWordAux_ne_nil w.length false w (bareOf w) orig hne horig.1,
        subWordAux_chars (fun c => isSpace c = false) w.length false w (bareOf w) orig
          hns horig.2⟩
  · have hrw : postfixWord w = w := by simp [postfixWord, hmem]
    rw [hrw]
    exact ⟨hne, hns⟩

/-- C10: post-fix whitespace normalization — on a string scalar the
post-fix repair splits on whitespace (after the quote repair) and rejoins
the per-word results with single spaces; consequently the output is its
own whitespace normal form (splitting it and rejoining with single spaces
reproduces it), so every interior run of whitespace collapses to one space
and no leading or trailing whitespace remains. -/
theorem claim_C10_postfix_whitespace (s : Str) :
    post_fix_translated_content (.str s) = .str (post_fix_string s) ∧
    splitWS (post_fix_string s) = (splitWS (quoteFix s)).map postfixWord ∧
    post_fix_string s = joinSp (splitWS (post_fix_string s)) := by
  have hsplit : splitWS (post_fix_string s) = (splitWS (quoteFix s)).map postfixWord := by
    unfold post_fix_string
    refine splitWS_joinSp _ ?_
    intro w hw
    obtain ⟨v, hv, rfl⟩ := List.mem_map.1 hw
    obtain ⟨hne, hns⟩ := splitWS_words (quoteFix s) v hv
    exact postfixWord_keeps v hne hns
  refine ⟨rfl, hsplit, ?_⟩
  rw [hsplit]
  rfl

/-! ## Counterexamples to the claims the code violates -/

/-- Counterexample to C1 as stated: with the fresh-mapping round trip, the
input string whose literal text `PH0` sits between placeholders is not
reproduced — unmasking the masked text of this input yields
a corrupted string (token fragments leak and one placeholder is lost),
because an occurrence of the token `__PH0__` straddling the token
`__PH1__` and the literal text is replaced first. -/
theorem claim_C1_counterexample :
    unmask_text (mask_text (strL "\x7bx\x7d\x7ba\x7dPH0\x7bb\x7d") []).1
        (mask_text (strL "\x7bx\x7d\x7ba\x7dPH0\x7bb\x7d") []).2
      ≠ strL "\x7bx\x7d\x7ba\x7dPH0\x7bb\x7d" := by decide

/-- Counterexample to C3 as stated: the string consisting of the
placeholder `\x7bplayer\x7d` (a full match of the placeholder grammar)
passes through translation unchanged, but the post-fix repair rewrites the
word `player` inside the braces to the registered spelling `Player`, so
the exact placeholder substring does not appear in the pipeline output. -/
theorem claim_C3_counterexample :
    matchPH (strL "\x7bplayer\x7d") = some (strL "\x7bplayer\x7d", [])
  ∧ hasSub (strL "\x7bplayer\x7d") (strL "\x7bplayer\x7d") = true
  ∧ pipeOne gNone (strL "\x7bplayer\x7d") = strL "\x7bPlayer\x7d"
  ∧ hasSub (strL "\x7bplayer\x7d") (pipeOne gNone (strL "\x7bplayer\x7d")) = false := by
  decide

/-- Counterexample to C4 as stated: under the always-failing gateway
oracle, `translate_string` on the input whose text `PH0` sits between
placeholders returns a string different from the original that still
contains the `__PH` sentinel — the unmask of the masked original is
corrupted, so the failure path does not degrade to the original text. -/
theorem claim_C4_counterexample :
    (translate_string gNone (strL "\x7bx\x7d\x7ba\x7dPH0\x7bb\x7d") ⟨0, 0⟩).1
        ≠ strL "\x7bx\x7d\x7ba\x7dPH0\x7bb\x7d"
  ∧ hasSub (strL "__PH")
      ((translate_string gNone (strL "\x7bx\x7d\x7ba\x7dPH0\x7bb\x7d") ⟨0, 0⟩).1) = true := by
  decide

/-- Counterexample to C5 as stated: the input `$a__PH1\x7bb\x7d` masks to
tokens only (so the gateway is skipped), but the skip branch returns the
unmask of the masked text, which is not the original string — an
occurrence of `__PH1__` straddling the restored `$` placeholder text and
the second token corrupts the result. -/
theorem claim_C5_counterexample :
    tokensOnly (mask_text (strL "$a__PH1\x7bb\x7d") []).1 = true
  ∧ (translate_string gNone (strL "$a__PH1\x7bb\x7d") ⟨0, 0⟩).1
      ≠ strL "$a__PH1\x7bb\x7d" := by decide

/-- Counterexample to C6 as stated: `spawn-x` contains the protected term
`Spawn` as a whole word (case-insensitively), but the pipeline output still
spells it `spawn`: the post-fix bare form of the word is `spawnx`, which is
not in the vocabulary, so no casing repair happens and the canonical
spelling `Spawn` does not occur as a whole word in the output. -/
theorem claim_C6_counterexample :
    hasWordCI (strL "Spawn") (strL "spawn-x") = true
  ∧ pickOrig (strL "spawn") = some (strL "Spawn")
  ∧ pipeOne gNone (strL "spawn-x") = strL "spawn-x"
  ∧ hasWordCS (strL "Spawn") (pipeOne gNone (strL "spawn-x")) = false := by decide

/-! ## Decimal rendering and masking tokens -/

theorem natStrAux_spec : ∀ (n fuel : Nat) (acc : Str), n ≤ fuel →
    natStrAux fuel n acc = natStr n ++ acc := by
  intro n
  induction n using Nat.strong_induction_on with
  | _ n ih =>
    intro fuel acc hle
    match fuel with
    | 0 =>
      obtain rfl : n = 0 := Nat.le_zero.1 hle
      simp [natStrAux, natStr]
    | fuel+1 =>
      by_cases h10 : n < 10
      · have hlhs : natStrAux (fuel+1) n acc = digCh n :: acc := by
          simp [natStrAux, h10]
        have hrhs : natStr n = [digCh n] := by
          unfold natStr
          match n, h10 with
          | 0, _ => rfl
          | (m+1), h10 => simp [natStrAux, h10]
        rw [hlhs, hrhs]
        rfl
      · push_neg at h10
        have hne : n ≠ 0 := by omega
        have hdiv_lt : n / 10 < n := Nat.div_lt_self (by omega) (by omega)
        have hstep : natStrAux (fuel+1) n acc =
            natStrAux fuel (n / 10) (digCh (n % 10) :: acc) := by
          simp [natStrAux, Nat.not_lt.2 h10]
        have hdivfuel : n / 10 ≤ fuel := by omega
        rw [hstep, ih (n / 10) hdiv_lt fuel (digCh (n % 10) :: acc) hdivfuel]
        have hrhs : natStr n = natStr (n / 10) ++ [digCh (n % 10)] := by
          unfold natStr
          match n, h10, hne with
          | (m+1), h10, _ =>
            have hm : m + 1 ≥ 10 := h10
            have : ¬ m + 1 < 10 := by omega
            rw [show natStrAux (m+1) (m+1) [] =
                natStrAux m ((m+1) / 10) (digCh ((m+1) % 10) :: []) by simp [natStrAux, this]]
            rw [ih ((m+1) / 10) (by omega) m (digCh ((m+1) % 10) :: []) (by omega)]
            rfl
        rw [hrhs]
        simp

theorem natStr_lt10 {n : Nat} (h : n < 10) : natStr n = [digCh n] := by
  unfold natStr
  match n, h with
  | 0, _ => rfl
  | (m+1), h => simp [natStrAux, h]

theorem natStr_ge10 {n : Nat} (h : 10 ≤ n) : natStr n = natStr (n / 10) ++ [digCh (n % 10)] := by
  unfold natStr
  match n, h with
  | (m+1), h =>
    have hlt : ¬ m + 1 < 10 := by omega
    rw [show natStrAux (m+1) (m+1) [] =
        natStrAux m ((m+1) / 10) (digCh ((m+1) % 10) :: []) by simp [natStrAux, hlt]]
    rw [natStrAux_spec ((m+1) / 10) m (digCh ((m+1) % 10) :: []) (by omega)]
    rfl

theorem natStr_ne_nil (n : Nat) : natStr n ≠ [] := by
  by_cases h : n < 10
  · simp [natStr_lt10 h]
  · rw [natStr_ge10 (by omega)]
    simp

theorem digCh_isDig (d : Nat) : isDig (digCh d) = true := by
  unfold digCh
  split <;> decide

theorem natStr_digits (n : Nat) : ∀ c ∈ natStr n, isDig c = true := by
  induction n using Nat.strong_induction_on with
  | _ n ih =>
    by_cases h : n < 10
    · simp [natStr_lt10 h, digCh_isDig]
    · rw [natStr_ge10 (by omega)]
      intro c hc
      rcases List.mem_append.1 hc with hc' | hc'
      · exact ih (n / 10) (Nat.div_lt_self (by omega) (by omega)) c hc'
      · simp only [List.mem_singleton] at hc'
        subst hc'
        exact digCh_isDig _

theorem digCh_inj {a b : Nat} (ha : a < 10) (hb : b < 10) (h : digCh a = digCh b) : a = b := by
  interval_cases a <;> interval_cases b <;> first | rfl | (exact absurd h (by decide))

theorem natStr_inj : ∀ (a b : Nat), natStr a = natStr b → a = b := by
  intro a
  induction a using Nat.strong_induction_on with
  | _ a ih =>
    intro b h
    by_cases ha : a < 10 <;> by_cases hb : b < 10
    · rw [natStr_lt10 ha, natStr_lt10 hb] at h
      simp only [List.cons.injEq, and_true] at h
      exact digCh_inj ha hb h
    · exfalso
      obtain ⟨d, ds, hx⟩ : ∃ d ds, natStr (b / 10) = d :: ds := by
        cases hx : natStr (b / 10) with
        | nil => exact absurd hx (natStr_ne_nil _)
        | cons d ds => exact ⟨d, ds, rfl⟩
      rw [natStr_lt10 ha, natStr_ge10 (by omega), hx] at h
      simp at h
    · exfalso
      obtain ⟨d, ds, hx⟩ : ∃ d ds, natStr (a / 10) = d :: ds := by
        cases hx : natStr (a / 10) with
        | nil => exact absurd hx (natStr_ne_nil _)
        | cons d ds => exact ⟨d, ds, rfl⟩
      rw [natStr_ge10 (by omega), natStr_lt10 hb, hx] at h
      simp at h
    · rw [natStr_ge10 (show 10 ≤ a by omega), natStr_ge10 (show 10 ≤ b by omega)] at h
      obtain ⟨h1, h2⟩ := append_singleton_inj h
      have hdiv := ih (a / 10) (Nat.div_lt_self (by omega) (by omega)) (b / 10) h1
      have hmod := digCh_inj (Nat.mod_lt _ (by omega)) (Nat.mod_lt _ (by omega)) h2
      omega

theorem isDig_ne_underscore {c : Char} (h : isDig c = true) :
    c ≠ '_' ∧ c ≠ 'P' ∧ c ≠ 'M' ∧ c ≠ 'H' ∧ c ≠ 'T' := by
  simp only [isDig, Bool.and_eq_true, decide_eq_true_eq] at h
  refine ⟨?_, ?_, ?_, ?_, ?_⟩ <;> rintro rfl <;> exact absurd h (by decide)

theorem digits_underscore : ∀ (a b x y : Str), (∀ c ∈ a, isDig c = true) →
    (∀ c ∈ b, isDig c = true) → a ++ '_' :: x = b ++ '_' :: y → a = b ∧ x = y
  | [], [], x, y, _, _, h => by simpa using h
  | [], d :: b, x, y, _, hb, h => by
      simp only [List.nil_append, List.cons_append, List.cons.injEq] at h
      have := hb d (List.mem_cons_self d b)
      rw [← h.1] at this
      exact absurd this (by decide)
  | c :: a, [], x, y, ha, _, h => by
      simp only [List.cons_append, List.nil_append, List.cons.injEq] at h
      have := ha c (List.mem_cons_self c a)
      rw [h.1] at this
      exact absurd this (by decide)
  | c :: a, d :: b, x, y, ha, hb, h => by
      simp only [List.cons_append, List.cons.injEq] at h
      have ih := digits_underscore a b x y (fun e he => ha e (List.mem_cons_of_mem c he))
        (fun e he => hb e (List.mem_cons_of_mem d he)) h.2
      exact ⟨by rw [h.1, ih.1], ih.2⟩

/-- Kind marker of a masking token: `PH` for placeholders, `MT` for terms. -/
def mkStr : Bool → Str
  | true => ['P', 'H']
  | false => ['M', 'T']

/-- Canonical form of a masking token: two underscores, the kind marker,
the decimal index, two underscores. -/
def tokStr (k : Bool) (i : Nat) : Str := '_' :: '_' :: (mkStr k ++ (natStr i ++ ['_', '_']))

theorem phTok_eq (i : Nat) : phTok i = tokStr true i := by
  simp [phTok, tokStr, mkStr, strL]

theorem mtTok_eq (i : Nat) : mtTok i = tokStr false i := by
  simp [mtTok, tokStr, mkStr, strL]

theorem tokStr_ne_nil (k : Bool) (i : Nat) : tokStr k i ≠ [] := by simp [tokStr]

theorem tokStr_cancel {k k' : Bool} {i i' : Nat} {x y : Str}
    (h : tokStr k i ++ x = tokStr k' i' ++ y) : k = k' ∧ i = i' ∧ x = y := by
  cases k <;> cases k' <;>
    simp only [tokStr, mkStr, List.cons_append, List.append_assoc, List.cons.injEq,
      List.singleton_append, true_and] at h
  · obtain ⟨h1, h2⟩ := digits_underscore (natStr i) (natStr i') ('_' :: x) ('_' :: y)
      (natStr_digits i) (natStr_digits i') (by simpa using h)
    exact ⟨rfl, natStr_inj _ _ h1, by simpa using h2⟩
  · exact absurd h.1 (by decide)
  · exact absurd h.1 (by decide)
  · obtain ⟨h1, h2⟩ := digits_underscore (natStr i) (natStr i') ('_' :: x) ('_' :: y)
      (natStr_digits i) (natStr_digits i') (by simpa using h)
    exact ⟨rfl, natStr_inj _ _ h1, by simpa using h2⟩

theorem tokStr_inj {k k' : Bool} {i i' : Nat} (h : tokStr k i = tokStr k' i') :
    k = k' ∧ i = i' := by
  have := tokStr_cancel (x := []) (y := []) (by simpa using h)
  exact ⟨this.1, this.2.1⟩

theorem not_mem_tok {c : Char} {k : Bool} {i : Nat}
    (h1 : c ≠ '_') (h2 : c ∉ mkStr k) (h3 : isDig c = false) : c ∉ tokStr k i := by
  intro hm
  simp only [tokStr, List.mem_cons, List.mem_append, List.not_mem_nil, or_false] at hm
  rcases hm with h | h | h | h | h | h
  · exact h1 h
  · exact h1 h
  · exact h2 h
  · exact absurd (natStr_digits i c h) (by simp [h3])
  · exact h1 h
  · exact h1 h

theorem tok_gram {k k2 : Bool} {i : Nat} {x z : Str}
    (h : tokStr k2 i = x ++ mkStr k ++ z) :
    k = k2 ∧ x = ['_', '_'] ∧ z = natStr i ++ ['_', '_'] := by
  have hdig := natStr_digits i
  cases k <;> cases k2
  · -- both MT: the letter M occurs only at position 2
    have hM : 'M' ∉ (['_', '_'] : Str) := by decide
    have hM2 : 'M' ∉ 'T' :: (natStr i ++ ['_', '_']) := by
      intro hm
      rcases List.mem_cons.1 hm with h' | h'
      · exact absurd h'.symm (by decide)
      · rcases List.mem_append.1 h' with h'' | h''
        · exact absurd (hdig 'M' h'') (by decide)
        · exact absurd h'' (by decide)
    have hu := @cons_mid_unique 'M' ['_', '_'] ('T' :: (natStr i ++ ['_', '_']))
      x ('T' :: z) (by simpa [tokStr, mkStr] using h) hM hM2
    refine ⟨rfl, hu.1.symm, ?_⟩
    simpa using hu.2.symm
  · -- an MT marker inside a PH token: the letter M does not occur there
    exfalso
    have hmem : 'M' ∈ tokStr true i := by
      rw [h]
      simp [mkStr]
    exact not_mem_tok (by decide) (by decide) (by decide) hmem
  · -- a PH marker inside an MT token: the letter P does not occur there
    exfalso
    have hmem : 'P' ∈ tokStr false i := by
      rw [h]
      simp [mkStr]
    exact not_mem_tok (by decide) (by decide) (by decide) hmem
  · -- both PH: the letter P occurs only at position 2
    have hP : 'P' ∉ (['_', '_'] : Str) := by decide
    have hP2 : 'P' ∉ 'H' :: (natStr i ++ ['_', '_']) := by
      intro hm
      rcases List.mem_cons.1 hm with h' | h'
      · exact absurd h'.symm (by decide)
      · rcases List.mem_append.1 h' with h'' | h''
        · exact absurd (hdig 'P' h'') (by decide)
        · exact absurd h'' (by decide)
    have hu := @cons_mid_unique 'P' ['_', '_'] ('H' :: (natStr i ++ ['_', '_']))
      x ('H' :: z) (by simpa [tokStr, mkStr] using h) hP hP2
    refine ⟨rfl, hu.1.symm, ?_⟩
    simpa using hu.2.symm

/-! ## Segment decomposition of masked strings -/

/-- A segment of a masked string: a literal chunk or a masking token
carrying its original text. -/
inductive Seg where
  | lit (s : Str)
  | tok (k : Bool) (i : Nat) (o : Str)
deriving DecidableEq

/-- The characters a segment contributes to the masked string. -/
def rendSeg : Seg → Str
  | .lit s => s
  | .tok k i _ => tokStr k i

/-- The characters a segment contributes to the fully unmasked string. -/
def expSeg : Seg → Str
  | .lit s => s
  | .tok _ _ o => o

/-- The masked string of a segment list. -/
def rend : List Seg → Str
  | [] => []
  | sg :: r => rendSeg sg ++ rend r

/-- The fully unmasked string of a segment list. -/
def expandAll : List Seg → Str
  | [] => []
  | sg :: r => expSeg sg ++ expandAll r

/-- Indices of the tokens, in order. -/
def tokIdxs : List Seg → List Nat
  | [] => []
  | .lit _ :: r => tokIdxs r
  | .tok _ i _ :: r => i :: tokIdxs r

/-- Indices of the tokens of one kind, in order. -/
def tokIdxsK (k : Bool) : List Seg → List Nat
  | [] => []
  | .lit _ :: r => tokIdxsK k r
  | .tok k' i _ :: r => if k' = k then i :: tokIdxsK k r else tokIdxsK k r

/-- The (token string, original) pairs of the kind-`k` tokens, in order. -/
def mapOfK (k : Bool) : List Seg → List (Str × Str)
  | [] => []
  | .lit _ :: r => mapOfK k r
  | .tok k' i o :: r => if k' = k then (tokStr k' i, o) :: mapOfK k r else mapOfK k r

/-- Well-formedness of a segment list for the unmasking argument: the
expanded text contains neither kind marker, every literal and every
original is nonempty, and the token indices are distinct. -/
structure GoodSegs (segs : List Seg) : Prop where
  noPH : hasSub (strL "PH") (expandAll segs) = false
  noMT : hasSub (strL "MT") (expandAll segs) = false
  litNE : ∀ s, Seg.lit s ∈ segs → s ≠ []
  origNE : ∀ k i o, Seg.tok k i o ∈ segs → o ≠ []
  nodup : List.Nodup (tokIdxs segs)

theorem GoodSegs_tail {sg : Seg} {rest : List Seg} (h : GoodSegs (sg :: rest)) :
    GoodSegs rest := by
  refine ⟨?_, ?_, ?_, ?_, ?_⟩
  · have := h.noPH
    rw [show expandAll (sg :: rest) = expSeg sg ++ expandAll rest from rfl] at this
    cases hx : hasSub (strL "PH") (expandAll rest)
    · rfl
    · rw [hasSub_mono_right (expSeg sg) hx] at this
      exact this
  · have := h.noMT
    rw [show expandAll (sg :: rest) = expSeg sg ++ expandAll rest from rfl] at this
    cases hx : hasSub (strL "MT") (expandAll rest)
    · rfl
    · rw [hasSub_mono_right (expSeg sg) hx] at this
      exact this
  · exact fun s hs => h.litNE s (List.mem_cons_of_mem sg hs)
  · exact fun k i o ho => h.origNE k i o (List.mem_cons_of_mem sg ho)
  · have := h.nodup
    cases sg with
    | lit s => exact this
    | tok k i o =>
      rw [show tokIdxs (Seg.tok k i o :: rest) = i :: tokIdxs rest from rfl] at this
      exact this.of_cons

theorem rendSeg_ne_nil {segs : List Seg} (h : GoodSegs segs) {sg : Seg} (hm : sg ∈ segs) :
    rendSeg sg ≠ [] := by
  cases sg with
  | lit s => exact h.litNE s hm
  | tok k i o => exact tokStr_ne_nil k i

theorem tok_mem_tokIdxs : ∀ {segs : List Seg} {k : Bool} {i : Nat} {o : Str},
    Seg.tok k i o ∈ segs → i ∈ tokIdxs segs
  | sg :: rest, k, i, o, hm => by
      rcases List.mem_cons.1 hm with rfl | hm'
      · simp [tokIdxs]
      · cases sg with
        | lit s => simpa [tokIdxs] using tok_mem_tokIdxs hm'
        | tok k' i' o' => simp [tokIdxs, tok_mem_tokIdxs hm']

/-- The kind-marker gram of a masked well-formed string occurs only at
offset 2 of a token of that kind. -/
theorem gram_loc : ∀ (segs : List Seg), GoodSegs segs → ∀ (k : Bool) (x y : Str),
    rend segs = x ++ mkStr k ++ y →
    ∃ segsL i o segsR, segs = segsL ++ Seg.tok k i o :: segsR ∧
      x = rend segsL ++ ['_', '_'] ∧ y = natStr i ++ ('_' :: '_' :: rend segsR)
  | [], _, k, x, y, h => by
      have : mkStr k ≠ [] := by cases k <;> simp [mkStr]
      rw [show rend [] = [] from rfl] at h
      exact absurd h.symm (by
        intro hx
        rcases List.append_eq_nil.1 hx with ⟨hx1, hx2⟩
        rcases List.append_eq_nil.1 hx1 with ⟨_, hx3⟩
        exact this hx3)
  | sg :: rest, hg, k, x, y, h => by
      rw [show rend (sg :: rest) = rendSeg sg ++ rend rest from rfl] at h
      rw [List.append_assoc] at h
      rcases List.append_eq_append_iff.1 h with ⟨a', ha1, ha2⟩ | ⟨c', hc1, hc2⟩
      · -- the occurrence lies fully in the rest
        obtain ⟨segsL, i, o, segsR, hs, hx, hy⟩ :=
          gram_loc rest (GoodSegs_tail hg) k a' y (by rw [ha2, List.append_assoc])
        refine ⟨sg :: segsL, i, o, segsR, by rw [hs]; rfl, ?_, hy⟩
        rw [ha1, hx]
        simp [rend]
      · -- the occurrence starts inside this segment
        match c', hc2 with
        | [], hc2 =>
          -- the occurrence starts exactly at the beginning of the rest
          obtain ⟨segsL, i, o, segsR, hs, hx, hy⟩ :=
            gram_loc rest (GoodSegs_tail hg) k [] y (by simpa using hc2.symm)
          exact absurd hx.symm (by simp)
        | [m1], hc2 =>
          -- a straddle: the last character of this segment is the marker head
          exfalso
          have hm1 : m1 :: rend rest = mkStr k ++ y := by simpa using hc2.symm
          cases k with
          | true =>
            simp only [mkStr, List.cons_append, List.cons.injEq] at hm1
            obtain ⟨rfl, hrest⟩ := hm1
            -- rend rest = 'H' :: y
            cases rest with
            | nil => simp [rend] at hrest
            | cons sg2 rest2 =>
              rw [show rend (sg2 :: rest2) = rendSeg sg2 ++ rend rest2 from rfl] at hrest
              cases sg2 with
              | tok k2 i2 o2 =>
                rw [show rendSeg (Seg.tok k2 i2 o2) = tokStr k2 i2 from rfl] at hrest
                simp [tokStr] at hrest
              | lit l2 =>
                have hl2 : l2 ≠ [] := hg.litNE l2 (by simp)
                cases l2 with
                | nil => exact hl2 rfl
                | cons d l2' =>
                  simp only [rendSeg, List.cons_append, List.cons.injEq] at hrest
                  obtain ⟨rfl, _⟩ := hrest
                  -- sg is a literal ending in 'P' followed by a literal starting 'H'
                  cases sg with
                  | tok k3 i3 o3 =>
                    have : rendSeg (Seg.tok k3 i3 o3) = x ++ ['P'] := hc1
                    rw [show rendSeg (Seg.tok k3 i3 o3) = tokStr k3 i3 from rfl] at this
                    have hlast : tokStr k3 i3 =
                        ('_' :: '_' :: (mkStr k3 ++ natStr i3 ++ ['_'])) ++ ['_'] := by
                      simp [tokStr]
                    rw [hlast] at this
                    obtain ⟨_, hPu⟩ := append_singleton_inj this.symm
                    exact absurd hPu (by decide)
                  | lit l1 =>
                    have hl1 : l1 = x ++ ['P'] := hc1
                    have : hasSub (strL "PH") (expandAll (Seg.lit l1 :: Seg.lit ('H' :: l2') :: rest2)) = true := by
                      refine hasSub_of_eq x (l2' ++ expandAll rest2) ?_
                      rw [show expandAll (Seg.lit l1 :: Seg.lit ('H' :: l2') :: rest2) =
                          l1 ++ ('H' :: l2') ++ expandAll rest2 by simp [expandAll, expSeg]]
                      rw [hl1]
                      simp [strL]
                    rw [hg.noPH] at this
                    exact Bool.false_ne_true this
          | false =>
            simp only [mkStr, List.cons_append, List.cons.injEq] at hm1
            obtain ⟨rfl, hrest⟩ := hm1
            cases rest with
            | nil => simp [rend] at hrest
            | cons sg2 rest2 =>
              rw [show rend (sg2 :: rest2) = rendSeg sg2 ++ rend rest2 from rfl] at hrest
              cases sg2 with
              | tok k2 i2 o2 =>
                rw [show rendSeg (Seg.tok k2 i2 o2) = tokStr k2 i2 from rfl] at hrest
                simp [tokStr] at hrest
              | lit l2 =>
                have hl2 : l2 ≠ [] := hg.litNE l2 (by simp)
                cases l2 with
                | nil => exact hl2 rfl
                | cons d l2' =>
                  simp only [rendSeg, List.cons_append, List.cons.injEq] at hrest
                  obtain ⟨rfl, _⟩ := hrest
                  cases sg with
                  | tok k3 i3 o3 =>
                    have : rendSeg (Seg.tok k3 i3 o3) = x ++ ['M'] := hc1
                    rw [show rendSeg (Seg.tok k3 i3 o3) = tokStr k3 i3 from rfl] at this
                    have hlast : tokStr k3 i3 =
                        ('_' :: '_' :: (mkStr k3 ++ natStr i3 ++ ['_'])) ++ ['_'] := by
                      simp [tokStr]
                    rw [hlast] at this
                    obtain ⟨_, hPu⟩ := append_singleton_inj this.symm
                    exact absurd hPu (by decide)
                  | lit l1 =>
                    have hl1 : l1 = x ++ ['M'] := hc1
                    have : hasSub (strL "MT") (expandAll (Seg.lit l1 :: Seg.lit ('T' :: l2') :: rest2)) = true := by
                      refine hasSub_of_eq x (l2' ++ expandAll rest2) ?_
                      rw [show expandAll (Seg.lit l1 :: Seg.lit ('T' :: l2') :: rest2) =
                          l1 ++ ('T' :: l2') ++ expandAll rest2 by simp [expandAll, expSeg]]
                      rw [hl1]
                      simp [strL]
                    rw [hg.noMT] at this
                    exact Bool.false_ne_true this
        | m1 :: m2 :: c'', hc2 =>
          -- the whole marker lies inside this segment
          obtain ⟨a, b, hab⟩ : ∃ a b, mkStr k = [a, b] := by
            cases k <;> exact ⟨_, _, rfl⟩
          rw [hab] at hc2
          simp only [List.cons_append, List.nil_append, List.cons.injEq] at hc2
          obtain ⟨rfl, rfl, hy⟩ := hc2
          have hsg : rendSeg sg = x ++ mkStr k ++ c'' := by
            rw [hc1, hab]
            simp
          cases sg with
          | lit l1 =>
            exfalso
            have : hasSub (mkStr k) (expandAll (Seg.lit l1 :: rest)) = true := by
              refine hasSub_of_eq x (c'' ++ expandAll rest) ?_
              rw [show expandAll (Seg.lit l1 :: rest) = l1 ++ expandAll rest from rfl]
              rw [show (rendSeg (Seg.lit l1) : Str) = l1 from rfl] at hsg
              rw [hsg]
              simp
            cases k with
            | true =>
              rw [show mkStr true = strL "PH" from rfl] at this
              rw [hg.noPH] at this
              exact Bool.false_ne_true this
            | false =>
              rw [show mkStr false = strL "MT" from rfl] at this
              rw [hg.noMT] at this
              exact Bool.false_ne_true this
          | tok k3 i3 o3 =>
            rw [show rendSeg (Seg.tok k3 i3 o3) = tokStr k3 i3 from rfl] at hsg
            obtain ⟨rfl, hx, hz⟩ := tok_gram hsg
            refine ⟨[], i3, o3, rest, rfl, by simpa using hx, ?_⟩
            rw [hy, hz]
            simp

/-- Any occurrence of a token string in a masked well-formed string is
exactly one of its token segments. -/
theorem occ_loc {segs : List Seg} (hg : GoodSegs segs) {k : Bool} {i : Nat} {x y : Str}
    (h : rend segs = x ++ tokStr k i ++ y) :
    ∃ segsL o segsR, segs = segsL ++ Seg.tok k i o :: segsR ∧
      x = rend segsL ∧ y = rend segsR := by
  have h' : rend segs = (x ++ ['_', '_']) ++ mkStr k ++ (natStr i ++ ('_' :: '_' :: y)) := by
    rw [h]
    simp [tokStr]
  obtain ⟨segsL, i2, o, segsR, hs, hx, hy⟩ := gram_loc segs hg k _ _ h'
  have hxx : x = rend segsL := by
    have := List.append_inj_left' hx rfl
    exact this
  obtain ⟨hii, hyy⟩ := digits_underscore (natStr i) (natStr i2) ('_' :: y)
    ('_' :: rend segsR) (natStr_digits i) (natStr_digits i2) (by simpa using hy)
  obtain rfl : i = i2 := natStr_inj _ _ hii
  exact ⟨segsL, o, segsR, hs, hxx, by simpa using hyy⟩

/-! ## The replace loop on masked strings -/

theorem replaceAllAux_fuel : ∀ (fuel fuel' : Nat) (s old new : Str),
    s.length ≤ fuel → s.length ≤ fuel' →
    replaceAllAux fuel s old new = replaceAllAux fuel' s old new
  | _, _, [], _, _, _, _ => by simp [replaceAllAux]
  | 0, _, c :: cs, _, _, h, _ => by simp at h
  | _, 0, c :: cs, _, _, _, h => by simp at h
  | f+1, f'+1, c :: cs, old, new, h, h' => by
      simp only [replaceAllAux]
      split
      · next hcond =>
        have hlen : ((c :: cs).drop old.length).length ≤ cs.length := by
          simp only [List.length_drop, List.length_cons]
          have : old ≠ [] := hcond.1
          have : 1 ≤ old.length := by
            cases old with
            | nil => exact absurd rfl this
            | cons d ds => simp
          omega
        rw [replaceAllAux_fuel f f' ((c :: cs).drop old.length) old new
          (by simp at h; omega) (by simp at h'; omega)]
      · rw [replaceAllAux_fuel f f' cs old new (by simp at h; omega) (by simp at h'; omega)]

theorem replaceAll_nil (old new : Str) : replaceAll [] old new = [] := rfl

theorem replace_none_aux : ∀ (fuel : Nat) (w old new : Str), w.length ≤ fuel →
    old ≠ [] → (∀ x y, w ≠ x ++ old ++ y) → replaceAllAux fuel w old new = w
  | _, [], _, _, _, _, _ => by simp [replaceAllAux]
  | 0, c :: cs, _, _, h, _, _ => by simp at h
  | fuel+1, c :: cs, old, new, h, hne, hno => by
      simp only [replaceAllAux]
      rw [if_neg]
      · rw [replace_none_aux fuel cs old new (by simp at h; omega) hne]
        intro x y hxy
        exact hno (c :: x) y (by simp [hxy])
      · rintro ⟨-, hlead⟩
        obtain ⟨r, hr⟩ := (leadsWith_iff old (c :: cs)).1 hlead
        exact hno [] r (by simpa using hr)

theorem replace_none {w old new : Str} (hne : old ≠ []) (hno : ∀ x y, w ≠ x ++ old ++ y) :
    replaceAll w old new = w :=
  replace_none_aux w.length w old new le_rfl hne hno

theorem replace_skip : ∀ (l r old new : Str), old ≠ [] →
    (∀ x y, l ++ r = x ++ old ++ y → l.length ≤ x.length) →
    replaceAll (l ++ r) old new = l ++ replaceAll r old new
  | [], r, old, new, _, _ => by simp
  | c :: l, r, old, new, hne, hpre => by
      show replaceAllAux (c :: (l ++ r)).length (c :: (l ++ r)) old new = _
      simp only [replaceAllAux]
      rw [if_neg]
      · have ih := replace_skip l r old new hne (fun x y hxy => by
          have := hpre (c :: x) y (by simp [hxy])
          simpa using this)
        show c :: replaceAll (l ++ r) old new = _
        rw [ih]
        rfl
      · rintro ⟨-, hlead⟩
        obtain ⟨rr, hr⟩ := (leadsWith_iff old (c :: (l ++ r))).1 hlead
        have := hpre [] rr (by simpa using hr)
        simp at this

theorem leadsWith_refl_append (p r : Str) : leadsWith p (p ++ r) = true :=
  (leadsWith_iff p (p ++ r)).2 ⟨r, rfl⟩

theorem replace_tok_head (old r new : Str) (hne : old ≠ []) :
    replaceAll (old ++ r) old new = new ++ replaceAll r old new := by
  cases old with
  | nil => exact absurd rfl hne
  | cons o1 old' =>
    show replaceAllAux (o1 :: (old' ++ r)).length (o1 :: (old' ++ r)) (o1 :: old') new = _
    simp only [replaceAllAux]
    rw [if_pos ⟨hne, by
      have : o1 :: (old' ++ r) = (o1 :: old') ++ r := rfl
      rw [this]
      exact leadsWith_refl_append (o1 :: old') r⟩]
    have hdrop : (o1 :: (old' ++ r)).drop (o1 :: old').length = r := by
      show ((o1 :: old') ++ r).drop (o1 :: old').length = r
      exact List.drop_left _ _
    rw [hdrop]
    rw [replaceAllAux_fuel _ r.length r (o1 :: old') new (by simp) le_rfl]
    rfl

/-- Substitution of the token named `(k, i)` by a literal. -/
def substTok (k : Bool) (i : Nat) (v : Str) : List Seg → List Seg
  | [] => []
  | Seg.lit s :: r => Seg.lit s :: substTok k i v r
  | Seg.tok k' i' o :: r =>
      (if k' = k ∧ i' = i then Seg.lit v else Seg.tok k' i' o) :: substTok k i v r

theorem substTok_id : ∀ {segs : List Seg} {k : Bool} {i : Nat} {v : Str},
    (∀ o, Seg.tok k i o ∉ segs) → substTok k i v segs = segs
  | [], _, _, _, _ => rfl
  | Seg.lit s :: r, k, i, v, h => by
      rw [substTok, substTok_id (fun o hm => h o (List.mem_cons_of_mem _ hm))]
  | Seg.tok k' i' o :: r, k, i, v, h => by
      rw [substTok]
      rw [if_neg, substTok_id (fun o' hm => h o' (List.mem_cons_of_mem _ hm))]
      rintro ⟨rfl, rfl⟩
      exact h o (List.mem_cons_self _ _)

theorem replace_seg : ∀ (segs : List Seg), GoodSegs segs → ∀ (k : Bool) (i : Nat) (v : Str),
    replaceAll (rend segs) (tokStr k i) v = rend (substTok k i v segs)
  | [], _, k, i, v => rfl
  | Seg.lit l :: rest, hg, k, i, v => by
      have hpre : ∀ x y, l ++ rend rest = x ++ tokStr k i ++ y → l.length ≤ x.length := by
        intro x y hxy
        obtain ⟨segsL, o, segsR, hs, hx, hy⟩ := occ_loc hg (x := x) (y := y) (by
          rw [show rend (Seg.lit l :: rest) = l ++ rend rest from rfl, hxy])
        cases segsL with
        | nil => simp at hs
        | cons sg0 segsL' =>
          simp only [List.cons_append, List.cons.injEq] at hs
          rw [hx, ← hs.1]
          simp [rend, rendSeg]
      have hstep : replaceAll (l ++ rend rest) (tokStr k i) v =
          l ++ replaceAll (rend rest) (tokStr k i) v :=
        replace_skip l (rend rest) (tokStr k i) v (tokStr_ne_nil k i) hpre
      show replaceAll (l ++ rend rest) (tokStr k i) v = _
      rw [hstep, replace_seg rest (GoodSegs_tail hg) k i v]
      rfl
  | Seg.tok k' i' o :: rest, hg, k, i, v => by
      by_cases hki : k' = k ∧ i' = i
      · obtain ⟨rfl, rfl⟩ := hki
        show replaceAll (tokStr k' i' ++ rend rest) (tokStr k' i') v = _
        rw [replace_tok_head _ _ _ (tokStr_ne_nil k' i')]
        have hnone : replaceAll (rend rest) (tokStr k' i') v = rend rest := by
          refine replace_none (tokStr_ne_nil k' i') ?_
          intro x y hxy
          obtain ⟨segsL, o2, segsR, hs, -, -⟩ := occ_loc (GoodSegs_tail hg)
            (x := x) (y := y) hxy
          have hmem : Seg.tok k' i' o2 ∈ rest := by
            rw [hs]
            exact List.mem_append_right _ (List.mem_cons_self _ _)
          have : i' ∈ tokIdxs rest := tok_mem_tokIdxs hmem
          have hnd := hg.nodup
          rw [show tokIdxs (Seg.tok k' i' o :: rest) = i' :: tokIdxs rest from rfl] at hnd
          exact (List.nodup_cons.1 hnd).1 this
        rw [hnone]
        have hrest : substTok k' i' v rest = rest := by
          refine substTok_id ?_
          intro o2 hm
          have : i' ∈ tokIdxs rest := tok_mem_tokIdxs hm
          have hnd := hg.nodup
          rw [show tokIdxs (Seg.tok k' i' o :: rest) = i' :: tokIdxs rest from rfl] at hnd
          exact (List.nodup_cons.1 hnd).1 this
        rw [show substTok k' i' v (Seg.tok k' i' o :: rest) =
            Seg.lit v :: substTok k' i' v rest by simp [substTok], hrest]
        rfl
      · have hpre : ∀ x y, tokStr k' i' ++ rend rest = x ++ tokStr k i ++ y →
            (tokStr k' i').length ≤ x.length := by
          intro x y hxy
          obtain ⟨segsL, o2, segsR, hs, hx, hy⟩ := occ_loc hg (x := x) (y := y) (by
            rw [show rend (Seg.tok k' i' o :: rest) = tokStr k' i' ++ rend rest from rfl, hxy])
          cases segsL with
          | nil =>
            simp only [List.nil_append, List.cons.injEq, Seg.tok.injEq] at hs
            exact absurd ⟨hs.1.1, hs.1.2.1⟩ hki
          | cons sg0 segsL' =>
            simp only [List.cons_append, List.cons.injEq] at hs
            rw [hx, ← hs.1]
            simp [rend, rendSeg]
        have hstep : replaceAll (tokStr k' i' ++ rend rest) (tokStr k i) v =
            tokStr k' i' ++ replaceAll (rend rest) (tokStr k i) v :=
          replace_skip _ _ _ _ (tokStr_ne_nil k i) hpre
        show replaceAll (tokStr k' i' ++ rend rest) (tokStr k i) v = _
        rw [hstep, replace_seg rest (GoodSegs_tail hg) k i v]
        rw [show substTok k i v (Seg.tok k' i' o :: rest) =
            Seg.tok k' i' o :: substTok k i v rest by simp [substTok, hki]]
        rfl

theorem expandAll_substTok : ∀ {segs : List Seg} {k : Bool} {i : Nat} {v : Str},
    (∀ o, Seg.tok k i o ∈ segs → o = v) →
    expandAll (substTok k i v segs) = expandAll segs
  | [], _, _, _, _ => rfl
  | Seg.lit s :: r, k, i, v, hv => by
      rw [substTok, show expandAll (Seg.lit s :: substTok k i v r) =
        s ++ expandAll (substTok k i v r) from rfl]
      rw [expandAll_substTok (fun o hm => hv o (List.mem_cons_of_mem _ hm))]
      rfl
  | Seg.tok k' i' o :: r, k, i, v, hv => by
      rw [substTok]
      by_cases hki : k' = k ∧ i' = i
      · rw [if_pos hki]
        obtain ⟨rfl, rfl⟩ := hki
        have : o = v := hv o (List.mem_cons_self _ _)
        subst this
        rw [show expandAll (Seg.lit o :: substTok k' i' o r) =
          o ++ expandAll (substTok k' i' o r) from rfl]
        rw [expandAll_substTok (fun o2 hm => hv o2 (List.mem_cons_of_mem _ hm))]
        rfl
      · rw [if_neg hki]
        rw [show expandAll (Seg.tok k' i' o :: substTok k i v r) =
          o ++ expandAll (substTok k i v r) from rfl]
        rw [expandAll_substTok (fun o2 hm => hv o2 (List.mem_cons_of_mem _ hm))]
        rfl

theorem substTok_mem_tok : ∀ {segs : List Seg} {k k2 : Bool} {i i2 : Nat} {v o2 : Str},
    Seg.tok k2 i2 o2 ∈ substTok k i v segs →
    Seg.tok k2 i2 o2 ∈ segs ∧ ¬(k2 = k ∧ i2 = i)
  | [], _, _, _, _, _, _, h => by simp [substTok] at h
  | Seg.lit s :: r, k, k2, i, i2, v, o2, h => by
      rw [substTok] at h
      rcases List.mem_cons.1 h with h' | h'
      · exact absurd h' (by simp)
      · have := substTok_mem_tok h'
        exact ⟨List.mem_cons_of_mem _ this.1, this.2⟩
  | Seg.tok k' i' o :: r, k, k2, i, i2, v, o2, h => by
      rw [substTok] at h
      by_cases hki : k' = k ∧ i' = i
      · rw [if_pos hki] at h
        rcases List.mem_cons.1 h with h' | h'
        · exact absurd h' (by simp)
        · have := substTok_mem_tok h'
          exact ⟨List.mem_cons_of_mem _ this.1, this.2⟩
      · rw [if_neg hki] at h
        rcases List.mem_cons.1 h with h' | h'
        · obtain ⟨rfl, rfl, rfl⟩ := Seg.tok.injEq _ _ _ _ _ _ ▸ h'
          exact ⟨List.mem_cons_self _ _, by simpa using hki⟩
        · have := substTok_mem_tok h'
          exact ⟨List.mem_cons_of_mem _ this.1, this.2⟩

theorem substTok_mem_lit : ∀ {segs : List Seg} {k : Bool} {i : Nat} {v s : Str},
    Seg.lit s ∈ substTok k i v segs →
    Seg.lit s ∈ segs ∨ (s = v ∧ ∃ o, Seg.tok k i o ∈ segs)
  | [], _, _, _, _, h => by simp [substTok] at h
  | Seg.lit t :: r, k, i, v, s, h => by
      rw [substTok] at h
      rcases List.mem_cons.1 h with h' | h'
      · obtain rfl : s = t := by simpa using h'
        exact Or.inl (List.mem_cons_self _ _)
      · rcases substTok_mem_lit h' with h'' | ⟨rfl, o, ho⟩
        · exact Or.inl (List.mem_cons_of_mem _ h'')
        · exact Or.inr ⟨rfl, o, List.mem_cons_of_mem _ ho⟩
  | Seg.tok k' i' o :: r, k, i, v, s, h => by
      rw [substTok] at h
      by_cases hki : k' = k ∧ i' = i
      · rw [if_pos hki] at h
        obtain ⟨rfl, rfl⟩ := hki
        rcases List.mem_cons.1 h with h' | h'
        · obtain rfl : s = v := by simpa using h'
          exact Or.inr ⟨rfl, o, List.mem_cons_self _ _⟩
        · rcases substTok_mem_lit h' with h'' | ⟨rfl, o2, ho⟩
          · exact Or.inl (List.mem_cons_of_mem _ h'')
          · exact Or.inr ⟨rfl, o2, List.mem_cons_of_mem _ ho⟩
      · rw [if_neg hki] at h
        rcases List.mem_cons.1 h with h' | h'
        · exact absurd h' (by simp)
        · rcases substTok_mem_lit h' with h'' | ⟨rfl, o2, ho⟩
          · exact Or.inl (List.mem_cons_of_mem _ h'')
          · exact Or.inr ⟨rfl, o2, List.mem_cons_of_mem _ ho⟩

theorem tokIdxs_substTok : ∀ (segs : List Seg) (k : Bool) (i : Nat) (v : Str),
    (tokIdxs (substTok k i v segs)).Sublist (tokIdxs segs)
  | [], _, _, _ => List.Sublist.refl _
  | Seg.lit s :: r, k, i, v => by
      rw [substTok]
      exact tokIdxs_substTok r k i v
  | Seg.tok k' i' o :: r, k, i, v => by
      rw [substTok]
      by_cases hki : k' = k ∧ i' = i
      · rw [if_pos hki]
        rw [show tokIdxs (Seg.lit v :: substTok k i v r) = tokIdxs (substTok k i v r) from rfl]
        exact (tokIdxs_substTok r k i v).trans (List.sublist_cons_self _ _)
      · rw [if_neg hki]
        rw [show tokIdxs (Seg.tok k' i' o :: substTok k i v r) =
            i' :: tokIdxs (substTok k i v r) from rfl]
        rw [show tokIdxs (Seg.tok k' i' o :: r) = i' :: tokIdxs r from rfl]
        exact (tokIdxs_substTok r k i v).cons₂ i'

theorem GoodSegs_subst {segs : List Seg} {k : Bool} {i : Nat} {v : Str}
    (hg : GoodSegs segs) (hv : ∀ o, Seg.tok k i o ∈ segs → o = v) :
    GoodSegs (substTok k i v segs) := by
  refine ⟨?_, ?_, ?_, ?_, ?_⟩
  · rw [expandAll_substTok hv]
    exact hg.noPH
  · rw [expandAll_substTok hv]
    exact hg.noMT
  · intro s hs
    rcases substTok_mem_lit hs with h' | ⟨rfl, o, ho⟩
    · exact hg.litNE s h'
    · rw [← hv o ho]
      exact hg.origNE k i o ho
  · intro k2 i2 o2 ho
    exact hg.origNE k2 i2 o2 (substTok_mem_tok ho).1
  · exact hg.nodup.sublist (tokIdxs_substTok segs k i v)

theorem rend_no_toks : ∀ {segs : List Seg},
    (∀ k i o, Seg.tok k i o ∉ segs) → rend segs = expandAll segs
  | [], _ => rfl
  | Seg.lit s :: r, h => by
      rw [show rend (Seg.lit s :: r) = s ++ rend r from rfl,
        show expandAll (Seg.lit s :: r) = s ++ expandAll r from rfl,
        rend_no_toks (fun k i o hm => h k i o (List.mem_cons_of_mem _ hm))]
  | Seg.tok k' i' o' :: r, h => absurd (List.mem_cons_self _ _) (h k' i' o')

theorem unmask_fold : ∀ (m : List (Str × Str)) (segs : List Seg),
    GoodSegs segs →
    (∀ p ∈ m, ∃ k i, p.1 = tokStr k i) →
    (m.map Prod.fst).Nodup →
    (∀ k i o, Seg.tok k i o ∈ segs → (tokStr k i, o) ∈ m) →
    List.foldl (fun acc p => replaceAll acc p.1 p.2) (rend segs) m = expandAll segs
  | [], segs, hg, _, _, hcover => by
      rw [List.foldl_nil]
      exact rend_no_toks (fun k i o hm => by simpa using hcover k i o hm)
  | (T, v) :: m', segs, hg, hkeys, hnodup, hcover => by
      obtain ⟨k, i, hT⟩ := hkeys (T, v) (List.mem_cons_self _ _)
      simp only at hT
      subst hT
      have hv : ∀ o, Seg.tok k i o ∈ segs → o = v := by
        intro o ho
        rcases List.mem_cons.1 (hcover k i o ho) with h' | h'
        · exact (Prod.mk.injEq _ _ _ _ ▸ h').2
        · exfalso
          have hmem : (tokStr k i) ∈ m'.map Prod.fst := List.mem_map.2 ⟨(tokStr k i, o), h', rfl⟩
          have := (List.nodup_cons.1
            (show ((tokStr k i) :: m'.map Prod.fst).Nodup from hnodup)).1
          exact this hmem
      rw [List.foldl_cons]
      have hstep : replaceAll (rend segs) (tokStr k i) v = rend (substTok k i v segs) :=
        replace_seg segs hg k i v
      simp only [hstep]
      have hrec := unmask_fold m' (substTok k i v segs) (GoodSegs_subst hg hv)
        (fun p hp => hkeys p (List.mem_cons_of_mem _ hp))
        ((List.nodup_cons.1
          (show ((tokStr k i) :: m'.map Prod.fst).Nodup from hnodup)).2)
        (by
          intro k2 i2 o2 ho
          obtain ⟨hmem, hne⟩ := substTok_mem_tok ho
          rcases List.mem_cons.1 (hcover k2 i2 o2 hmem) with h' | h'
          · exfalso
            have := (Prod.mk.injEq _ _ _ _ ▸ h').1
            exact hne (tokStr_inj this)
          · exact h')
      rw [hrec, expandAll_substTok hv]

/-! ## Specification of the placeholder scanning pass -/

/-- Prepend one literal character to a segment list, merging with a
leading literal chunk. -/
def consSeg (c : Char) : List Seg → List Seg
  | Seg.lit t :: r => Seg.lit (c :: t) :: r
  | segs => Seg.lit [c] :: segs

theorem consSeg_cases (c : Char) (segs : List Seg) :
    (∃ t r, segs = Seg.lit t :: r ∧ consSeg c segs = Seg.lit (c :: t) :: r) ∨
    (consSeg c segs = Seg.lit [c] :: segs) := by
  match segs with
  | [] => exact Or.inr rfl
  | Seg.lit t :: r => exact Or.inl ⟨t, r, rfl, rfl⟩
  | Seg.tok k i o :: r => exact Or.inr rfl

theorem rend_consSeg (c : Char) (segs : List Seg) : rend (consSeg c segs) = c :: rend segs := by
  rcases consSeg_cases c segs with ⟨t, r, rfl, h⟩ | h <;> rw [h] <;> simp [rend, rendSeg]

theorem expandAll_consSeg (c : Char) (segs : List Seg) :
    expandAll (consSeg c segs) = c :: expandAll segs := by
  rcases consSeg_cases c segs with ⟨t, r, rfl, h⟩ | h <;> rw [h] <;> simp [expandAll, expSeg]

theorem tokIdxs_consSeg (c : Char) (segs : List Seg) : tokIdxs (consSeg c segs) = tokIdxs segs := by
  rcases consSeg_cases c segs with ⟨t, r, rfl, h⟩ | h <;> rw [h] <;> simp [tokIdxs]

theorem tokIdxsK_consSeg (c : Char) (k : Bool) (segs : List Seg) :
    tokIdxsK k (consSeg c segs) = tokIdxsK k segs := by
  rcases consSeg_cases c segs with ⟨t, r, rfl, h⟩ | h <;> rw [h] <;> simp [tokIdxsK]

theorem mapOfK_consSeg (c : Char) (k : Bool) (segs : List Seg) :
    mapOfK k (consSeg c segs) = mapOfK k segs := by
  rcases consSeg_cases c segs with ⟨t, r, rfl, h⟩ | h <;> rw [h] <;> simp [mapOfK]

theorem consSeg_litNE {c : Char} {segs : List Seg}
    (h : ∀ t, Seg.lit t ∈ segs → t ≠ []) :
    ∀ t, Seg.lit t ∈ consSeg c segs → t ≠ [] := by
  rcases consSeg_cases c segs with ⟨t0, r, rfl, hc⟩ | hc <;> rw [hc]
  · intro t ht
    rcases List.mem_cons.1 ht with h' | h'
    · obtain rfl : t = c :: t0 := by simpa using h'
      simp
    · exact h t (List.mem_cons_of_mem _ h')
  · intro t ht
    rcases List.mem_cons.1 ht with h' | h'
    · obtain rfl : t = [c] := by simpa using h'
      simp
    · exact h t h'

theorem consSeg_tok_mem {c : Char} {segs : List Seg} {k : Bool} {i : Nat} {o : Str} :
    Seg.tok k i o ∈ consSeg c segs ↔ Seg.tok k i o ∈ segs := by
  rcases consSeg_cases c segs with ⟨t0, r, rfl, hc⟩ | hc <;> rw [hc]
  · simp
  · simp

/-- The segment after a literal is a token (or nothing): literal chunks
are maximal. -/
def headNotLit : List Seg → Prop
  | Seg.lit _ :: _ => False
  | _ => True

def noLL : List Seg → Prop
  | [] => True
  | Seg.lit _ :: rest => headNotLit rest ∧ noLL rest
  | Seg.tok _ _ _ :: rest => noLL rest

theorem consSeg_noLL {c : Char} {segs : List Seg} (h : noLL segs) : noLL (consSeg c segs) := by
  match segs, h with
  | [], _ => exact ⟨trivial, trivial⟩
  | Seg.lit t :: r, h =>
      show noLL (Seg.lit (c :: t) :: r)
      exact h
  | Seg.tok k i o :: r, h =>
      show noLL (Seg.lit [c] :: Seg.tok k i o :: r)
      exact ⟨trivial, h⟩

theorem matchPH_spec : ∀ {s sp r : Str}, matchPH s = some (sp, r) → sp ≠ [] ∧ sp ++ r = s := by
  intro s sp r h
  unfold matchPH at h
  split at h
  · next rest =>
    split at h
    · next tail heq =>
      split at h
      · exact absurd h (by simp)
      · simp only [Option.some.injEq, Prod.mk.injEq] at h
        obtain ⟨h1, h2⟩ := h
        subst h1
        subst h2
        refine ⟨by simp, ?_⟩
        rw [List.cons_append, List.append_assoc, List.singleton_append, ← heq,
          List.takeWhile_append_dropWhile]
    · exact absurd h (by simp)
  · next rest =>
    split at h
    · next tail heq =>
      split at h
      · exact absurd h (by simp)
      · simp only [Option.some.injEq, Prod.mk.injEq] at h
        obtain ⟨h1, h2⟩ := h
        subst h1
        subst h2
        refine ⟨by simp, ?_⟩
        rw [List.cons_append, List.append_assoc, List.singleton_append, ← heq,
          List.takeWhile_append_dropWhile]
    · exact absurd h (by simp)
  · next rest =>
    split at h
    · exact absurd h (by simp)
    · simp only [Option.some.injEq, Prod.mk.injEq] at h
      obtain ⟨h1, h2⟩ := h
      subst h1
      subst h2
      refine ⟨by simp, ?_⟩
      rw [List.cons_append, List.takeWhile_append_dropWhile]
  · exact absurd h (by simp)

/-- Full specification of the placeholder pass: the output is a rendered
segment list whose expansion is the input, whose tokens are placeholder
tokens with consecutive indices recorded in order at the end of the
mapping, with nonempty literals and originals, and with maximal literal
chunks. -/
theorem subPH_spec : ∀ (fuel : Nat) (s : Str) (i : Nat) (m : List (Str × Str)),
    s.length ≤ fuel →
    ∃ segs : List Seg,
      subPHAux fuel s i m = (rend segs, i + (tokIdxs segs).length, m ++ mapOfK true segs) ∧
      expandAll segs = s ∧
      tokIdxs segs = List.range' i (tokIdxs segs).length ∧
      (∀ k j o, Seg.tok k j o ∈ segs → k = true ∧ o ≠ []) ∧
      (∀ t, Seg.lit t ∈ segs → t ≠ []) ∧
      noLL segs
  | fuel, [], i, m, _ => by
      refine ⟨[], ?_, rfl, rfl, by simp, by simp, trivial⟩
      cases fuel <;> simp [subPHAux, rend, tokIdxs, mapOfK]
  | 0, c :: cs, i, m, hle => by simp at hle
  | fuel+1, c :: cs, i, m, hle => by
      cases hm : matchPH (c :: cs) with
      | none =>
        obtain ⟨segs', h1, h2, h3, h4, h5, h6⟩ :=
          subPH_spec fuel cs i m (by simp at hle; omega)
        refine ⟨consSeg c segs', ?_, ?_, ?_, ?_, ?_, ?_⟩
        · rw [show subPHAux (fuel+1) (c :: cs) i m =
            (c :: (subPHAux fuel cs i m).1, (subPHAux fuel cs i m).2) by
              simp [subPHAux, hm]]
          rw [h1, rend_consSeg, tokIdxs_consSeg, mapOfK_consSeg]
        · rw [expandAll_consSeg, h2]
        · rw [tokIdxs_consSeg]
          exact h3
        · intro k j o hm2
          exact h4 k j o (consSeg_tok_mem.1 hm2)
        · exact consSeg_litNE h5
        · exact consSeg_noLL h6
      | some pr =>
        obtain ⟨sp, r⟩ := pr
        obtain ⟨hne, hsr⟩ := matchPH_spec hm
        have hrlen : r.length ≤ fuel := by
          have := congrArg List.length hsr
          simp at this hle
          cases sp with
          | nil => exact absurd rfl hne
          | cons a as => simp at this; omega
        obtain ⟨segs', h1, h2, h3, h4, h5, h6⟩ :=
          subPH_spec fuel r (i+1) (m ++ [(phTok i, sp)]) hrlen
        refine ⟨Seg.tok true i sp :: segs', ?_, ?_, ?_, ?_, ?_, ?_⟩
        · rw [show subPHAux (fuel+1) (c :: cs) i m =
            (phTok i ++ (subPHAux fuel r (i+1) (m ++ [(phTok i, sp)])).1,
             (subPHAux fuel r (i+1) (m ++ [(phTok i, sp)])).2) by
              simp [subPHAux, hm]]
          rw [h1]
          refine congrArg₂ Prod.mk ?_ (congrArg₂ Prod.mk ?_ ?_)
          · rw [show rend (Seg.tok true i sp :: segs') = tokStr true i ++ rend segs' from rfl,
              phTok_eq]
          · rw [show tokIdxs (Seg.tok true i sp :: segs') = i :: tokIdxs segs' from rfl]
            simp
            omega
          · rw [show mapOfK true (Seg.tok true i sp :: segs') =
              (tokStr true i, sp) :: mapOfK true segs' by simp [mapOfK]]
            rw [phTok_eq]
            simp
        · rw [show expandAll (Seg.tok true i sp :: segs') = sp ++ expandAll segs' from rfl,
            h2, hsr]
        · rw [show tokIdxs (Seg.tok true i sp :: segs') = i :: tokIdxs segs' from rfl]
          simp only [List.length_cons]
          rw [List.range'_succ]
          rw [h3]
          simp
        · intro k j o hm2
          rcases List.mem_cons.1 hm2 with h' | h'
          · obtain ⟨rfl, -, rfl⟩ := Seg.tok.injEq _ _ _ _ _ _ ▸ h'
            exact ⟨rfl, hne⟩
          · exact h4 k j o h'
        · intro t ht
          rcases List.mem_cons.1 ht with h' | h'
          · exact absurd h' (by simp)
          · exact h5 t h'
        · show noLL (Seg.tok true i sp :: segs')
          exact h6

/-! ## Specification of the term scanning pass -/

theorem sortedTerms_ne_nil : ∀ t ∈ sortedTerms, t ≠ [] := by decide

theorem sortedTerms_toLower_ne : ∀ t ∈ sortedTerms, ∀ c ∈ t, Char.toLower c ≠ '_' := by decide

theorem sortedTerms_lower_mem : ∀ t ∈ sortedTerms, toLowerStr t ∈ lowerTerms := by decide

theorem matchTermIn_spec : ∀ {ts : List Str} {s sp r : Str},
    matchTermIn ts s = some (sp, r) →
    ∃ t ∈ ts, toLowerStr (s.take t.length) = toLowerStr t ∧
      sp = s.take t.length ∧ r = s.drop t.length ∧ boundaryOK r = true := by
  intro ts
  induction ts with
  | nil => intro s sp r h; simp [matchTermIn] at h
  | cons t ts ih =>
    intro s sp r h
    rw [matchTermIn] at h
    split at h
    · next hcond =>
      simp only [Option.some.injEq, Prod.mk.injEq] at h
      obtain ⟨h1, h2⟩ := h
      subst h1
      subst h2
      exact ⟨t, List.mem_cons_self _ _, hcond.1, rfl, rfl, hcond.2⟩
    · obtain ⟨t2, hm, h3, h4, h5, h6⟩ := ih h
      exact ⟨t2, List.mem_cons_of_mem _ hm, h3, h4, h5, h6⟩

theorem matchTermIn_none {ts : List Str} {s : Str}
    (h : ∀ t ∈ ts, ¬ (toLowerStr (s.take t.length) = toLowerStr t ∧
      boundaryOK (s.drop t.length) = true)) : matchTermIn ts s = none := by
  induction ts with
  | nil => rfl
  | cons t ts ih =>
    rw [matchTermIn]
    rw [if_neg (h t (List.mem_cons_self _ _))]
    exact ih (fun t2 hm => h t2 (List.mem_cons_of_mem _ hm))

theorem ciTake_len {t s : Str} (h : toLowerStr (s.take t.length) = toLowerStr t) :
    t.length ≤ s.length := by
  have := congrArg List.length h
  simp only [toLowerStr, List.length_map, List.length_take] at this
  omega

theorem ciTake_le : ∀ {t l R' : Str}, (∀ c ∈ t, Char.toLower c ≠ '_') →
    toLowerStr ((l ++ '_' :: R').take t.length) = toLowerStr t → t.length ≤ l.length
  | [], _, _, _, _ => by simp
  | a :: t', [], R', hl, h => by
      exfalso
      simp only [List.nil_append, List.length_cons, List.take_succ_cons, toLowerStr,
        List.map_cons, List.cons.injEq] at h
      exact hl a (List.mem_cons_self _ _) h.1.symm
  | a :: t', c :: l', R', hl, h => by
      simp only [List.cons_append, List.length_cons, List.take_succ_cons, toLowerStr,
        List.map_cons, List.cons.injEq] at h
      have := @ciTake_le t' l' R'
        (fun d hd => hl d (List.mem_cons_of_mem _ hd)) h.2
      simpa using Nat.succ_le_succ this

/-- A term match at a literal chunk followed by a token boundary stays
inside the chunk. -/
theorem matchTerm_in_lit {l R sp r : Str}
    (hR : R = [] ∨ ∃ R', R = '_' :: R')
    (h : matchTermIn sortedTerms (l ++ R) = some (sp, r)) :
    sp ≠ [] ∧ toLowerStr sp ∈ lowerTerms ∧
    ∃ l', sp ++ l' = l ∧ r = l' ++ R := by
  obtain ⟨t, htm, hci, hsp, hr, hb⟩ := matchTermIn_spec h
  have htne : t ≠ [] := sortedTerms_ne_nil t htm
  have htlen : t.length ≤ l.length := by
    rcases hR with rfl | ⟨R', rfl⟩
    · have := ciTake_len hci
      simpa using this
    · exact ciTake_le (sortedTerms_toLower_ne t htm) hci
  have hsp' : sp = l.take t.length := by
    rw [hsp, List.take_append_of_le_length htlen]
  have hr' : r = l.drop t.length ++ R := by
    rw [hr, List.drop_append_of_le_length htlen]
  refine ⟨?_, ?_, l.drop t.length, ?_, hr'⟩
  · rw [hsp']
    intro hx
    have := congrArg List.length hx
    simp only [List.length_take, List.length_nil] at this
    have : t.length = 0 := by omega
    exact htne (List.length_eq_zero.1 this)
  · rw [hsp, hci]
    exact sortedTerms_lower_mem t htm
  · rw [hsp']
    exact List.take_append_drop _ _

theorem subTermsAux_fuel : ∀ (fuel fuel' : Nat) (prev : Bool) (s : Str) (i : Nat)
    (m : List (Str × Str)), s.length ≤ fuel → s.length ≤ fuel' →
    subTermsAux fuel prev s i m = subTermsAux fuel' prev s i m
  | _, _, _, [], _, _, _, _ => by simp [subTermsAux]
  | 0, _, _, c :: cs, _, _, h, _ => by simp at h
  | _, 0, _, c :: cs, _, _, _, h => by simp at h
  | f+1, f'+1, prev, c :: cs, i, m, h, h' => by
      cases hm : (if prev then none else matchTermIn sortedTerms (c :: cs)) with
      | none =>
        simp only [subTermsAux, hm]
        rw [subTermsAux_fuel f f' (isWordChar c) cs i m (by simp at h; omega)
          (by simp at h'; omega)]
      | some pr =>
        obtain ⟨sp, r⟩ := pr
        have hmm : matchTermIn sortedTerms (c :: cs) = some (sp, r) := by
          by_cases hp : prev
          · rw [if_pos hp] at hm; exact absurd hm (by simp)
          · rwa [if_neg hp] at hm
        obtain ⟨t, htm, hci, hsp, hr, hb⟩ := matchTermIn_spec hmm
        have htne : t ≠ [] := sortedTerms_ne_nil t htm
        have hrlen : r.length ≤ cs.length := by
          rw [hr]
          simp only [List.length_drop, List.length_cons]
          have : 1 ≤ t.length := by
            cases t with
            | nil => exact absurd rfl htne
            | cons a as => simp
          omega
        have h1 := subTermsAux_fuel f f' true r (i+1) (m ++ [(mtTok i, sp)])
          (by simp at h; omega) (by simp at h'; omega)
        have h2 := subTermsAux_fuel f f' true r i m
          (by simp at h; omega) (by simp at h'; omega)
        simp only [subTermsAux, hm]
        by_cases hlt : toLowerStr sp ∈ lowerTerms
        · simp only [if_pos hlt]
          rw [h1]
        · simp only [if_neg hlt]
          rw [h2]

theorem isDig_isWord {c : Char} (h : isDig c = true) : isWordChar c = true := by
  simp only [isDig, Bool.and_eq_true, decide_eq_true_eq] at h
  simp only [isWordChar, Bool.or_eq_true, Bool.and_eq_true, decide_eq_true_eq]
  tauto

theorem tokStr_word (k : Bool) (i : Nat) : ∀ c ∈ tokStr k i, isWordChar c = true := by
  intro c hc
  simp only [tokStr, List.mem_cons, List.mem_append, List.not_mem_nil, or_false] at hc
  rcases hc with rfl | rfl | hm | hd | rfl | rfl
  · rfl
  · rfl
  · cases k <;> simp [mkStr] at hm <;> rcases hm with rfl | rfl <;> rfl
  · exact isDig_isWord (natStr_digits i c hd)
  · rfl
  · rfl

/-- While the previous character was a word character, the scanner copies a
run of word characters verbatim without attempting any match. -/
theorem scan_wordrun : ∀ (w R : Str) (i : Nat) (m : List (Str × Str)) (fuel : Nat),
    (w ++ R).length ≤ fuel → (∀ c ∈ w, isWordChar c = true) →
    subTermsAux fuel true (w ++ R) i m =
      (w ++ (subTermsAux R.length true R i m).1,
       (subTermsAux R.length true R i m).2)
  | [], R, i, m, fuel, h, _ => by
      simp only [List.nil_append]
      rw [subTermsAux_fuel fuel R.length true R i m (by simpa using h) le_rfl]
  | c :: w', R, i, m, fuel, h, hw => by
      cases fuel with
      | zero => simp at h
      | succ f =>
        have hc : isWordChar c = true := hw c (List.mem_cons_self _ _)
        simp only [List.cons_append, subTermsAux, if_true, hc, List.append_eq]
        rw [scan_wordrun w' R i m f (by simp at h ⊢; omega)
          (fun d hd => hw d (List.mem_cons_of_mem _ hd))]

theorem matchTermIn_underscore (r : Str) : matchTermIn sortedTerms ('_' :: r) = none := by
  apply matchTermIn_none
  intro t htm hcon
  obtain ⟨hci, _⟩ := hcon
  cases t with
  | nil => exact absurd rfl (sortedTerms_ne_nil [] htm)
  | cons a t' =>
    simp only [List.length_cons, List.take_succ_cons, toLowerStr, List.map_cons,
      List.cons.injEq] at hci
    have h2 : Char.toLower a = '_' := hci.1.symm.trans (by decide)
    exact sortedTerms_toLower_ne (a :: t') htm a (List.mem_cons_self _ _) h2

theorem tok_mem_mapOfK : ∀ {segs : List Seg} {k : Bool} {i : Nat} {o : Str},
    Seg.tok k i o ∈ segs → (tokStr k i, o) ∈ mapOfK k segs := by
  intro segs
  induction segs with
  | nil => intro k i o h; simp at h
  | cons sg rest ih =>
    intro k i o h
    rcases List.mem_cons.1 h with heq | hmem
    · subst heq
      simp [mapOfK]
    · cases sg with
      | lit t => exact ih hmem
      | tok k' i' o' =>
        by_cases hkk : k' = k
        · subst hkk
          simp only [mapOfK, if_pos rfl]
          exact List.mem_cons_of_mem _ (ih hmem)
        · simp only [mapOfK, if_neg hkk]
          exact ih hmem

theorem mapOfK_mem : ∀ {segs : List Seg} {k : Bool} {p : Str × Str},
    p ∈ mapOfK k segs → ∃ i o, p = (tokStr k i, o) := by
  intro segs
  induction segs with
  | nil => intro k p h; simp [mapOfK] at h
  | cons sg rest ih =>
    intro k p h
    cases sg with
    | lit t => exact ih h
    | tok k' i' o' =>
      by_cases hkk : k' = k
      · subst hkk
        have hh : mapOfK k' (Seg.tok k' i' o' :: rest) =
            (tokStr k' i', o') :: mapOfK k' rest := by
          simp [mapOfK]
        rw [hh] at h
        rcases List.mem_cons.1 h with heq | hmem
        · exact ⟨i', o', heq⟩
        · exact ih hmem
      · simp only [mapOfK, if_neg hkk] at h
        exact ih h

theorem mapOfK_keys : ∀ (k : Bool) (segs : List Seg),
    (mapOfK k segs).map Prod.fst = (tokIdxsK k segs).map (tokStr k)
  | k, [] => rfl
  | k, Seg.lit t :: rest => by
      simp only [mapOfK, tokIdxsK]
      exact mapOfK_keys k rest
  | k, Seg.tok k' i o :: rest => by
      simp only [mapOfK, tokIdxsK]
      by_cases hkk : k' = k
      · rw [if_pos hkk, if_pos hkk]
        subst hkk
        simp only [List.map_cons]
        rw [mapOfK_keys k' rest]
      · rw [if_neg hkk, if_neg hkk]
        exact mapOfK_keys k rest


theorem noLL_rend {rest : List Seg} (h : headNotLit rest) :
    rend rest = [] ∨ ∃ R', rend rest = '_' :: R' := by
  cases rest with
  | nil => exact Or.inl rfl
  | cons sg r2 =>
    cases sg with
    | lit t => simp [headNotLit] at h
    | tok k j o =>
      exact Or.inr ⟨('_' :: (mkStr k ++ (natStr j ++ ['_', '_']))) ++ rend r2, rfl⟩

/-- Specification of the term pass over a rendered segment list whose
tokens all came from the placeholder pass: it emits a segment list with
the same expansion, the same placeholder tokens, and fresh term tokens
numbered consecutively from the entry counter. -/
theorem subTerms_spec : ∀ (fuel : Nat) (segs : List Seg) (prev : Bool) (i : Nat)
    (m : List (Str × Str)),
    (rend segs).length ≤ fuel →
    (∀ t, Seg.lit t ∈ segs → t ≠ []) →
    noLL segs →
    (∀ k j o, Seg.tok k j o ∈ segs → k = true ∧ o ≠ []) →
    (∀ j ∈ tokIdxs segs, j < i) →
    (tokIdxs segs).Nodup →
    ∃ (segs2 : List Seg) (cnt : Nat),
      subTermsAux fuel prev (rend segs) i m =
        (rend segs2, i + cnt, m ++ mapOfK false segs2) ∧
      expandAll segs2 = expandAll segs ∧
      mapOfK true segs2 = mapOfK true segs ∧
      tokIdxsK false segs2 = List.range' i cnt ∧
      (∀ t, Seg.lit t ∈ segs2 → t ≠ []) ∧
      (∀ k j o, Seg.tok k j o ∈ segs2 → o ≠ []) ∧
      (tokIdxs segs2).Nodup ∧
      (∀ j ∈ tokIdxs segs2, j ∈ tokIdxs segs ∨ (i ≤ j ∧ j < i + cnt)) := by
  intro fuel
  induction fuel using Nat.strong_induction_on with
  | _ fuel IH =>
  intro segs prev i m hfuel hlit hnoLL htok hbound hnd
  cases segs with
  | nil =>
    refine ⟨[], 0, ?_, rfl, rfl, rfl, by simp, by simp, by simp [tokIdxs],
      by intro x hx; simp [tokIdxs] at hx⟩
    cases fuel <;> simp [subTermsAux, rend, mapOfK]
  | cons sg rest =>
    cases sg with
    | tok k j o =>
      obtain ⟨rfl, ho⟩ := htok k j o (List.mem_cons_self _ _)
      have hfR : (rend rest).length < fuel := by
        have h1 : (rend (Seg.tok true j o :: rest)).length
            = (tokStr true j).length + (rend rest).length := by
          simp [rend, rendSeg]
        have h2 := hfuel
        rw [h1] at h2
        have h3 : 1 ≤ (tokStr true j).length := by simp [tokStr]
        omega
      have hstep : subTermsAux fuel prev (rend (Seg.tok true j o :: rest)) i m =
          (tokStr true j ++ (subTermsAux (rend rest).length true (rend rest) i m).1,
           (subTermsAux (rend rest).length true (rend rest) i m).2) := by
        cases prev with
        | true =>
          exact scan_wordrun (tokStr true j) (rend rest) i m fuel (by exact hfuel)
            (tokStr_word true j)
        | false =>
          cases fuel with
          | zero =>
            exfalso
            have h1 := hfuel
            rw [show rend (Seg.tok true j o :: rest)
                = '_' :: (('_' :: (mkStr true ++ (natStr j ++ ['_', '_']))) ++ rend rest)
              from rfl] at h1
            simp at h1
          | succ f =>
            have hnone : (if false = true then none else matchTermIn sortedTerms
                ('_' :: (('_' :: (mkStr true ++ (natStr j ++ ['_', '_']))) ++ rend rest)))
                = none := by
              rw [if_neg (by simp)]
              exact matchTermIn_underscore _
            have hw : isWordChar '_' = true := by decide
            have hword : ∀ c ∈ ('_' :: (mkStr true ++ (natStr j ++ ['_', '_']))),
                isWordChar c = true :=
              fun c hc => tokStr_word true j c (List.mem_cons_of_mem _ hc)
            have hlen : (('_' :: (mkStr true ++ (natStr j ++ ['_', '_'])))
                ++ rend rest).length ≤ f := by
              have h2 := hfuel
              rw [show rend (Seg.tok true j o :: rest)
                  = '_' :: (('_' :: (mkStr true ++ (natStr j ++ ['_', '_']))) ++ rend rest)
                from rfl] at h2
              simp at h2 ⊢
              omega
            show subTermsAux (f+1) false
                ('_' :: (('_' :: (mkStr true ++ (natStr j ++ ['_', '_']))) ++ rend rest)) i m
              = _
            simp only [subTermsAux, hnone, hw]
            rw [scan_wordrun ('_' :: (mkStr true ++ (natStr j ++ ['_', '_']))) (rend rest)
              i m f hlen hword]
            rfl
      obtain ⟨segs2', cnt, heq, hexp, hmapT, hidxF, hlit2, horig2, hnd2, hdich⟩ :=
        IH (rend rest).length hfR rest true i m le_rfl
          (fun t ht => hlit t (List.mem_cons_of_mem _ ht))
          hnoLL
          (fun k2 j2 o2 hm2 => htok k2 j2 o2 (List.mem_cons_of_mem _ hm2))
          (fun x hx => hbound x (List.mem_cons_of_mem _ hx))
          (List.Nodup.of_cons hnd)
      have hnd' : (j :: tokIdxs rest).Nodup := hnd
      refine ⟨Seg.tok true j o :: segs2', cnt, ?_, ?_, ?_, ?_, ?_, ?_, ?_, ?_⟩
      · rw [hstep, heq]
        rfl
      · show o ++ expandAll segs2' = o ++ expandAll rest
        rw [hexp]
      · have e1 : mapOfK true (Seg.tok true j o :: segs2')
            = (tokStr true j, o) :: mapOfK true segs2' := by simp [mapOfK]
        have e2 : mapOfK true (Seg.tok true j o :: rest)
            = (tokStr true j, o) :: mapOfK true rest := by simp [mapOfK]
        rw [e1, e2, hmapT]
      · have e1 : tokIdxsK false (Seg.tok true j o :: segs2') = tokIdxsK false segs2' := by
          simp [tokIdxsK]
        rw [e1]
        exact hidxF
      · intro t ht
        rcases List.mem_cons.1 ht with h' | h'
        · exact absurd h' (by simp)
        · exact hlit2 t h'
      · intro k2 j2 o2 hm2
        rcases List.mem_cons.1 hm2 with h' | h'
        · obtain ⟨-, -, rfl⟩ := Seg.tok.injEq _ _ _ _ _ _ ▸ h'
          exact ho
        · exact horig2 k2 j2 o2 h'
      · show (j :: tokIdxs segs2').Nodup
        refine List.nodup_cons.2 ⟨?_, hnd2⟩
        intro hj
        rcases hdich j hj with hin | hge
        · exact (List.nodup_cons.1 hnd').1 hin
        · exact absurd (hbound j (List.mem_cons_self _ _)) (by omega)
      · intro x hx
        rcases List.mem_cons.1 (show x ∈ j :: tokIdxs segs2' from hx) with rfl | h'
        · exact Or.inl (List.mem_cons_self _ _)
        · rcases hdich x h' with hin | hge
          · exact Or.inl (List.mem_cons_of_mem _ hin)
          · exact Or.inr hge
    | lit ℓ =>
      obtain ⟨c, ℓ', rfl⟩ : ∃ c ℓ', ℓ = c :: ℓ' := by
        cases ℓ with
        | nil => exact absurd rfl (hlit [] (List.mem_cons_self _ _))
        | cons c ℓ' => exact ⟨c, ℓ', rfl⟩
      obtain ⟨hhead, hrest⟩ : headNotLit rest ∧ noLL rest := hnoLL
      cases fuel with
      | zero =>
        exfalso
        have h1 := hfuel
        rw [show rend (Seg.lit (c :: ℓ') :: rest) = c :: (ℓ' ++ rend rest) from rfl] at h1
        simp at h1
      | succ f =>
        cases hm : (if prev = true then none
            else matchTermIn sortedTerms (c :: (ℓ' ++ rend rest))) with
        | none =>
          have hval : subTermsAux (f+1) prev (rend (Seg.lit (c :: ℓ') :: rest)) i m =
              (c :: (subTermsAux f (isWordChar c) (ℓ' ++ rend rest) i m).1,
               (subTermsAux f (isWordChar c) (ℓ' ++ rend rest) i m).2) := by
            show subTermsAux (f+1) prev (c :: (ℓ' ++ rend rest)) i m = _
            simp only [subTermsAux, hm]
          cases ℓ' with
          | nil =>
            have hfl : (rend rest).length ≤ f := by
              have h1 := hfuel
              rw [show rend (Seg.lit [c] :: rest) = c :: ([] ++ rend rest) from rfl] at h1
              simp at h1
              omega
            obtain ⟨segs2', cnt, heq, hexp, hmapT, hidxF, hlit2, horig2, hnd2, hdich⟩ :=
              IH f (by omega) rest (isWordChar c) i m hfl
                (fun t ht => hlit t (List.mem_cons_of_mem _ ht)) hrest
                (fun k2 j2 o2 hm2 => htok k2 j2 o2 (List.mem_cons_of_mem _ hm2))
                hbound hnd
            refine ⟨consSeg c segs2', cnt, ?_, ?_, ?_, ?_, consSeg_litNE hlit2, ?_, ?_, ?_⟩
            · rw [hval]
              have heq' : subTermsAux f (isWordChar c) ([] ++ rend rest) i m =
                  (rend segs2', i + cnt, m ++ mapOfK false segs2') := heq
              rw [heq', rend_consSeg, mapOfK_consSeg]
            · rw [expandAll_consSeg, hexp]
              rfl
            · rw [mapOfK_consSeg, hmapT]
              rfl
            · rw [tokIdxsK_consSeg]
              exact hidxF
            · intro k2 j2 o2 hm2
              exact horig2 k2 j2 o2 (consSeg_tok_mem.1 hm2)
            · rw [tokIdxs_consSeg]
              exact hnd2
            · intro x hx
              rw [tokIdxs_consSeg] at hx
              exact hdich x hx
          | cons d ℓ'' =>
            have hfl : (rend (Seg.lit (d :: ℓ'') :: rest)).length ≤ f := by
              have h1 := hfuel
              rw [show rend (Seg.lit (c :: d :: ℓ'') :: rest)
                  = c :: ((d :: ℓ'') ++ rend rest) from rfl] at h1
              rw [show rend (Seg.lit (d :: ℓ'') :: rest) = (d :: ℓ'') ++ rend rest from rfl]
              simp at h1 ⊢
              omega
            obtain ⟨segs2', cnt, heq, hexp, hmapT, hidxF, hlit2, horig2, hnd2, hdich⟩ :=
              IH f (by omega) (Seg.lit (d :: ℓ'') :: rest) (isWordChar c) i m hfl
                (fun t ht => by
                  rcases List.mem_cons.1 ht with h' | h'
                  · obtain rfl : t = d :: ℓ'' := by simpa using h'
                    simp
                  · exact hlit t (List.mem_cons_of_mem _ h'))
                ⟨hhead, hrest⟩
                (fun k2 j2 o2 hm2 => htok k2 j2 o2 (by
                  rcases List.mem_cons.1 hm2 with h' | h'
                  · exact absurd h' (by simp)
                  · exact List.mem_cons_of_mem _ h'))
                hbound hnd
            refine ⟨consSeg c segs2', cnt, ?_, ?_, ?_, ?_, consSeg_litNE hlit2, ?_, ?_, ?_⟩
            · rw [hval]
              have heq' : subTermsAux f (isWordChar c) ((d :: ℓ'') ++ rend rest) i m =
                  (rend segs2', i + cnt, m ++ mapOfK false segs2') := heq
              rw [heq', rend_consSeg, mapOfK_consSeg]
            · rw [expandAll_consSeg, hexp]
              rfl
            · rw [mapOfK_consSeg, hmapT]
              rfl
            · rw [tokIdxsK_consSeg]
              exact hidxF
            · intro k2 j2 o2 hm2
              exact horig2 k2 j2 o2 (consSeg_tok_mem.1 hm2)
            · rw [tokIdxs_consSeg]
              exact hnd2
            · intro x hx
              rw [tokIdxs_consSeg] at hx
              exact hdich x hx
        | some pr =>
          obtain ⟨sp, r⟩ := pr
          have hmm : matchTermIn sortedTerms ((c :: ℓ') ++ rend rest) = some (sp, r) := by
            cases prev with
            | true =>
              rw [if_pos rfl] at hm
              exact absurd hm (by simp)
            | false =>
              rw [if_neg (by simp)] at hm
              exact hm
          obtain ⟨hspne, hlow, l', hl', hr⟩ := matchTerm_in_lit (noLL_rend hhead) hmm
          have hval : subTermsAux (f+1) prev (rend (Seg.lit (c :: ℓ') :: rest)) i m =
              (mtTok i ++ (subTermsAux f true r (i + 1) (m ++ [(mtTok i, sp)])).1,
               (subTermsAux f true r (i + 1) (m ++ [(mtTok i, sp)])).2) := by
            show subTermsAux (f+1) prev (c :: (ℓ' ++ rend rest)) i m = _
            simp only [subTermsAux, hm]
            rw [if_pos hlow]
          have hsp1 : 1 ≤ sp.length := by
            cases sp with
            | nil => exact absurd rfl hspne
            | cons a as => simp
          have hlp : sp.length + l'.length = ℓ'.length + 1 := by
            have h2 := congrArg List.length hl'
            simpa using h2
          have hfr : r.length ≤ f := by
            have h1 := hfuel
            rw [show rend (Seg.lit (c :: ℓ') :: rest) = (c :: ℓ') ++ rend rest from rfl,
              List.length_append, List.length_cons] at h1
            rw [hr, List.length_append]
            omega
          cases l' with
          | nil =>
            have hrr : r = rend rest := by rw [hr]; rfl
            subst hrr
            have hspc : sp = c :: ℓ' := by
              have h2 := hl'
              rwa [List.append_nil] at h2
            obtain ⟨segs2', cnt, heq, hexp, hmapT, hidxF, hlit2, horig2, hnd2, hdich⟩ :=
              IH f (by omega) rest true (i + 1) (m ++ [(mtTok i, sp)]) hfr
                (fun t ht => hlit t (List.mem_cons_of_mem _ ht)) hrest
                (fun k2 j2 o2 hm2 => htok k2 j2 o2 (List.mem_cons_of_mem _ hm2))
                (fun x hx => Nat.lt_succ_of_lt (hbound x hx))
                hnd
            refine ⟨Seg.tok false i sp :: segs2', cnt + 1, ?_, ?_, ?_, ?_, ?_, ?_, ?_, ?_⟩
            · rw [hval, heq]
              refine congrArg₂ Prod.mk ?_ (congrArg₂ Prod.mk ?_ ?_)
              · rw [show rend (Seg.tok false i sp :: segs2')
                    = tokStr false i ++ rend segs2' from rfl, mtTok_eq]
              · omega
              · rw [show mapOfK false (Seg.tok false i sp :: segs2')
                    = (tokStr false i, sp) :: mapOfK false segs2' by simp [mapOfK],
                  mtTok_eq]
                simp
            · rw [show expandAll (Seg.tok false i sp :: segs2')
                  = sp ++ expandAll segs2' from rfl, hexp,
                show expandAll (Seg.lit (c :: ℓ') :: rest)
                  = (c :: ℓ') ++ expandAll rest from rfl, hspc]
            · rw [show mapOfK true (Seg.tok false i sp :: segs2')
                  = mapOfK true segs2' by simp [mapOfK], hmapT]
              rfl
            · rw [show tokIdxsK false (Seg.tok false i sp :: segs2')
                  = i :: tokIdxsK false segs2' by simp [tokIdxsK], hidxF,
                List.range'_succ]
            · intro t ht
              rcases List.mem_cons.1 ht with h' | h'
              · exact absurd h' (by simp)
              · exact hlit2 t h'
            · intro k2 j2 o2 hm2
              rcases List.mem_cons.1 hm2 with h' | h'
              · obtain ⟨-, -, rfl⟩ := Seg.tok.injEq _ _ _ _ _ _ ▸ h'
                exact hspne
              · exact horig2 k2 j2 o2 h'
            · show (i :: tokIdxs segs2').Nodup
              refine List.nodup_cons.2 ⟨?_, hnd2⟩
              intro hi
              rcases hdich i hi with hin | hge
              · exact absurd (hbound i hin) (by omega)
              · omega
            · intro x hx
              rcases List.mem_cons.1 (show x ∈ i :: tokIdxs segs2' from hx) with rfl | h'
              · exact Or.inr ⟨le_rfl, by omega⟩
              · rcases hdich x h' with hin | hge
                · exact Or.inl hin
                · exact Or.inr ⟨by omega, by omega⟩
          | cons d l'' =>
            have hfl : (rend (Seg.lit (d :: l'') :: rest)).length ≤ f := by
              rw [show rend (Seg.lit (d :: l'') :: rest) = (d :: l'') ++ rend rest from rfl,
                ← hr]
              exact hfr
            have heqr : subTermsAux f true r (i + 1) (m ++ [(mtTok i, sp)]) =
                subTermsAux f true (rend (Seg.lit (d :: l'') :: rest)) (i + 1)
                  (m ++ [(mtTok i, sp)]) := by
              rw [hr]
              rfl
            obtain ⟨segs2', cnt, heq, hexp, hmapT, hidxF, hlit2, horig2, hnd2, hdich⟩ :=
              IH f (by omega) (Seg.lit (d :: l'') :: rest) true (i + 1)
                (m ++ [(mtTok i, sp)]) hfl
                (fun t ht => by
                  rcases List.mem_cons.1 ht with h' | h'
                  · obtain rfl : t = d :: l'' := by simpa using h'
                    simp
                  · exact hlit t (List.mem_cons_of_mem _ h'))
                ⟨hhead, hrest⟩
                (fun k2 j2 o2 hm2 => htok k2 j2 o2 (by
                  rcases List.mem_cons.1 hm2 with h' | h'
                  · exact absurd h' (by simp)
                  · exact List.mem_cons_of_mem _ h'))
                (fun x hx => Nat.lt_succ_of_lt (hbound x hx))
                hnd
            refine ⟨Seg.tok false i sp :: segs2', cnt + 1, ?_, ?_, ?_, ?_, ?_, ?_, ?_, ?_⟩
            · rw [hval, heqr, heq]
              refine congrArg₂ Prod.mk ?_ (congrArg₂ Prod.mk ?_ ?_)
              · rw [show rend (Seg.tok false i sp :: segs2')
                    = tokStr false i ++ rend segs2' from rfl, mtTok_eq]
              · omega
              · rw [show mapOfK false (Seg.tok false i sp :: segs2')
                    = (tokStr false i, sp) :: mapOfK false segs2' by simp [mapOfK],
                  mtTok_eq]
                simp
            · rw [show expandAll (Seg.tok false i sp :: segs2')
                  = sp ++ expandAll segs2' from rfl, hexp,
                show expandAll (Seg.lit (d :: l'') :: rest)
                  = (d :: l'') ++ expandAll rest from rfl,
                show expandAll (Seg.lit (c :: ℓ') :: rest)
                  = (c :: ℓ') ++ expandAll rest from rfl,
                ← hl', List.append_assoc]
            · rw [show mapOfK true (Seg.tok false i sp :: segs2')
                  = mapOfK true segs2' by simp [mapOfK], hmapT]
              rfl
            · rw [show tokIdxsK false (Seg.tok false i sp :: segs2')
                  = i :: tokIdxsK false segs2' by simp [tokIdxsK], hidxF,
                List.range'_succ]
            · intro t ht
              rcases List.mem_cons.1 ht with h' | h'
              · exact absurd h' (by simp)
              · exact hlit2 t h'
            · intro k2 j2 o2 hm2
              rcases List.mem_cons.1 hm2 with h' | h'
              · obtain ⟨-, -, rfl⟩ := Seg.tok.injEq _ _ _ _ _ _ ▸ h'
                exact hspne
              · exact horig2 k2 j2 o2 h'
            · show (i :: tokIdxs segs2').Nodup
              refine List.nodup_cons.2 ⟨?_, hnd2⟩
              intro hi
              rcases hdich i hi with hin | hge
              · exact absurd (hbound i hin) (by omega)
              · omega
            · intro x hx
              rcases List.mem_cons.1 (show x ∈ i :: tokIdxs segs2' from hx) with rfl | h'
              · exact Or.inr ⟨le_rfl, by omega⟩
              · rcases hdich x h' with hin | hge
                · exact Or.inl hin
                · exact Or.inr ⟨by omega, by omega⟩

theorem tokIdxsK_true_of_all : ∀ {segs : List Seg},
    (∀ k j o, Seg.tok k j o ∈ segs → k = true) → tokIdxsK true segs = tokIdxs segs := by
  intro segs
  induction segs with
  | nil => intro h; rfl
  | cons sg rest ih =>
    intro h
    cases sg with
    | lit t =>
      show tokIdxsK true rest = tokIdxs rest
      exact ih (fun k j o hm => h k j o (List.mem_cons_of_mem _ hm))
    | tok k j o =>
      have hk : k = true := h k j o (List.mem_cons_self _ _)
      subst hk
      have e1 : tokIdxsK true (Seg.tok true j o :: rest) = j :: tokIdxsK true rest := by
        simp [tokIdxsK]
      rw [e1, ih (fun k2 j2 o2 hm => h k2 j2 o2 (List.mem_cons_of_mem _ hm))]
      rfl

/-- The mask/unmask round trip restores the original text whenever the text
contains neither of the two-letter kind markers of the masking tokens. -/
theorem mask_unmask_roundtrip (s : Str)
    (hPH : hasSub (strL "PH") s = false) (hMT : hasSub (strL "MT") s = false) :
    unmask_text (mask_text s []).1 (mask_text s []).2 = s := by
  obtain ⟨segsP, h1, h2, h3, h4, h5, h6⟩ := subPH_spec s.length s 0 [] le_rfl
  have hbound : ∀ j ∈ tokIdxs segsP, j < (tokIdxs segsP).length := by
    intro j hj
    rw [h3] at hj
    have h7 := List.mem_range'_1.1 hj
    omega
  have hndP : (tokIdxs segsP).Nodup := by
    rw [h3]
    exact List.nodup_range' _ _
  obtain ⟨segs2, cnt, g1, g2, g3, g4, g5, g6, g7, g8⟩ :=
    subTerms_spec (rend segsP).length segsP false ((tokIdxs segsP).length)
      (mapOfK true segsP) le_rfl h5 h6 h4 hbound hndP
  have hmask : mask_text s [] = (rend segs2, mapOfK true segs2 ++ mapOfK false segs2) := by
    simp only [mask_text, List.length_nil, h1, Nat.zero_add, List.nil_append, g1, g3]
  have hgood : GoodSegs segs2 := by
    refine ⟨?_, ?_, g5, g6, g7⟩
    · rw [g2, h2]
      exact hPH
    · rw [g2, h2]
      exact hMT
  have hkeys : ∀ p ∈ mapOfK true segs2 ++ mapOfK false segs2,
      ∃ k i2, p.1 = tokStr k i2 := by
    intro p hp
    rcases List.mem_append.1 hp with hmem | hmem
    · obtain ⟨i2, o2, rfl⟩ := mapOfK_mem hmem
      exact ⟨true, i2, rfl⟩
    · obtain ⟨i2, o2, rfl⟩ := mapOfK_mem hmem
      exact ⟨false, i2, rfl⟩
  have hkA : (mapOfK true segs2).map Prod.fst = (tokIdxs segsP).map (tokStr true) := by
    rw [g3, mapOfK_keys, tokIdxsK_true_of_all (fun k j o hm2 => (h4 k j o hm2).1)]
  have hkB : (mapOfK false segs2).map Prod.fst
      = (List.range' (tokIdxs segsP).length cnt).map (tokStr false) := by
    rw [mapOfK_keys, g4]
  have hinjT : Function.Injective (tokStr true) := fun a b hab => (tokStr_inj hab).2
  have hinjF : Function.Injective (tokStr false) := fun a b hab => (tokStr_inj hab).2
  have hndk : ((mapOfK true segs2 ++ mapOfK false segs2).map Prod.fst).Nodup := by
    rw [List.map_append, hkA, hkB]
    refine List.Nodup.append (List.Nodup.map hinjT hndP)
      (List.Nodup.map hinjF (List.nodup_range' _ _)) ?_
    intro x hxA hxB
    obtain ⟨a, haa, rfl⟩ := List.mem_map.1 hxA
    obtain ⟨b, hbb, hEq⟩ := List.mem_map.1 hxB
    exact absurd (tokStr_inj hEq).1 (by simp)
  have hcover : ∀ k i2 o, Seg.tok k i2 o ∈ segs2 →
      (tokStr k i2, o) ∈ mapOfK true segs2 ++ mapOfK false segs2 := by
    intro k i2 o hm2
    cases k with
    | true => exact List.mem_append.2 (Or.inl (tok_mem_mapOfK hm2))
    | false => exact List.mem_append.2 (Or.inr (tok_mem_mapOfK hm2))
  have hfold := unmask_fold (mapOfK true segs2 ++ mapOfK false segs2) segs2
    hgood hkeys hndk hcover
  rw [hmask]
  show List.foldl (fun acc p => replaceAll acc p.1 p.2) (rend segs2)
    (mapOfK true segs2 ++ mapOfK false segs2) = s
  rw [hfold, g2, h2]

/-! ## Amended claims: round trip, failure degradation, no-content skip -/

theorem attemptLoop_allfail (g : Str → Nat → Option Str) (masked : Str)
    (m : List (Str × Str)) (hg : ∀ a, g masked a = none) :
    ∀ (rem a : Nat) (t : Tally), attemptLoop g masked m rem a t
      = (unmask_text masked m, ⟨t.translated, t.skipped + 1⟩)
  | 0, _, t => rfl
  | rem+1, a, t => by
      simp only [attemptLoop, hg a]
      exact attemptLoop_allfail g masked m hg rem (a+1) t

/-- With an always-failing gateway and a text free of the token kind
markers, `translate_string` returns the original text and counts it as
skipped, on every one of its three paths. -/
theorem translate_string_fail (g : Str → Nat → Option Str) (s : Str) (t : Tally)
    (hg : ∀ a, g (mask_text s []).1 a = none)
    (hPH : hasSub (strL "PH") s = false) (hMT : hasSub (strL "MT") s = false) :
    translate_string g s t = (s, ⟨t.translated, t.skipped + 1⟩) := by
  simp only [translate_string]
  by_cases hsp : s.all isSpace = true
  · rw [if_pos hsp]
  · rw [if_neg hsp]
    by_cases htk : tokensOnly (mask_text s []).1 = true
    · rw [if_pos htk, mask_unmask_roundtrip s hPH hMT]
    · rw [if_neg htk,
        attemptLoop_allfail g (mask_text s []).1 (mask_text s []).2 hg MAX_RETRIES 1 t,
        mask_unmask_roundtrip s hPH hMT]

theorem hasSub_drop_prefix (p q s : Str) (h : hasSub (q ++ p) s = true) :
    hasSub p s = true := by
  obtain ⟨x, y, rfl⟩ := (hasSub_iff _ _).1 h
  exact hasSub_of_eq (x ++ q) y (by simp)

/-- C1 (amended): the mask/unmask round trip restores the input exactly
for every string that does not contain the two-letter kind markers `PH` or
`MT`; `unmask(mask(S).masked_text, mask(S).mapping) = S` for all such `S`. -/
theorem claim_C1_mask_roundtrip (s : Str)
    (hPH : hasSub (strL "PH") s = false) (hMT : hasSub (strL "MT") s = false) :
    unmask_text (mask_text s []).1 (mask_text s []).2 = s :=
  mask_unmask_roundtrip s hPH hMT

theorem claim_C1_mask_roundtrip_witness :
    hasSub (strL "PH") (strL "Welcome \x7bplayer\x7d!") = false ∧
    hasSub (strL "MT") (strL "Welcome \x7bplayer\x7d!") = false ∧
    unmask_text (mask_text (strL "Welcome \x7bplayer\x7d!") []).1
        (mask_text (strL "Welcome \x7bplayer\x7d!") []).2
      = strL "Welcome \x7bplayer\x7d!" :=
  ⟨by decide, by decide, claim_C1_mask_roundtrip _ (by decide) (by decide)⟩

/-- C4 (amended): when every gateway attempt fails and the input is free of
the token kind markers, `translate_string` returns the original string
unmodified, the scalar is counted as skipped rather than translated, and
the result contains no masking token sentinel. -/
theorem claim_C4_failure_degradation (g : Str → Nat → Option Str) (s : Str) (t : Tally)
    (hg : ∀ a, g (mask_text s []).1 a = none)
    (hPH : hasSub (strL "PH") s = false)
    (hMT : hasSub (strL "MT") s = false) :
    translate_string g s t = (s, ⟨t.translated, t.skipped + 1⟩) ∧
    hasSub (strL "__PH") (translate_string g s t).1 = false ∧
    hasSub (strL "__MT") (translate_string g s t).1 = false := by
  have h1 := translate_string_fail g s t hg hPH hMT
  refine ⟨h1, ?_, ?_⟩
  · rw [h1]
    show hasSub (strL "__PH") s = false
    cases hx : hasSub (strL "__PH") s with
    | false => rfl
    | true =>
      have h2 : hasSub (strL "PH") s = true :=
        hasSub_drop_prefix (strL "PH") (strL "__") s hx
      rw [hPH] at h2
      exact Bool.noConfusion h2
  · rw [h1]
    show hasSub (strL "__MT") s = false
    cases hx : hasSub (strL "__MT") s with
    | false => rfl
    | true =>
      have h2 : hasSub (strL "MT") s = true :=
        hasSub_drop_prefix (strL "MT") (strL "__") s hx
      rw [hMT] at h2
      exact Bool.noConfusion h2

theorem claim_C4_failure_degradation_witness :
    (∀ a, gNone (mask_text (strL "hi \x7bp\x7d") []).1 a = none) ∧
    hasSub (strL "PH") (strL "hi \x7bp\x7d") = false ∧
    hasSub (strL "MT") (strL "hi \x7bp\x7d") = false ∧
    (translate_string gNone (strL "hi \x7bp\x7d") ⟨0, 0⟩
        = (strL "hi \x7bp\x7d", ⟨0, 1⟩) ∧
      hasSub (strL "__PH")
        (translate_string gNone (strL "hi \x7bp\x7d") ⟨0, 0⟩).1 = false ∧
      hasSub (strL "__MT")
        (translate_string gNone (strL "hi \x7bp\x7d") ⟨0, 0⟩).1 = false) :=
  ⟨fun a => rfl, by decide, by decide,
    claim_C4_failure_degradation gNone _ _ (fun a => rfl) (by decide) (by decide)⟩

/-- C5 (amended): a non-whitespace string whose masked form consists solely
of masking tokens is skipped without consulting the gateway — the result is
the same for every oracle `g` — and, when the text is free of the token
kind markers, it is returned unchanged and counted as skipped. -/
theorem claim_C5_no_content_skip (g : Str → Nat → Option Str) (s : Str) (t : Tally)
    (hsp : s.all isSpace = false)
    (htok : tokensOnly (mask_text s []).1 = true)
    (hPH : hasSub (strL "PH") s = false)
    (hMT : hasSub (strL "MT") s = false) :
    translate_string g s t = (s, ⟨t.translated, t.skipped + 1⟩) := by
  simp only [translate_string]
  rw [if_neg (by simp [hsp]), if_pos htok, mask_unmask_roundtrip s hPH hMT]

theorem claim_C5_no_content_skip_witness :
    (strL "\x7bp\x7d").all isSpace = false ∧
    tokensOnly (mask_text (strL "\x7bp\x7d") []).1 = true ∧
    hasSub (strL "PH") (strL "\x7bp\x7d") = false ∧
    hasSub (strL "MT") (strL "\x7bp\x7d") = false ∧
    translate_string gNone (strL "\x7bp\x7d") ⟨0, 0⟩ = (strL "\x7bp\x7d", ⟨0, 1⟩) :=
  ⟨by decide, by decide, by decide, by decide,
    claim_C5_no_content_skip gNone _ ⟨0, 0⟩ (by decide) (by decide) (by decide) (by decide)⟩

/-! ## Amended claim: placeholder fidelity -/

theorem splitWSAux_pending : ∀ (y acc : Str), acc ≠ [] →
    ∃ w ∈ splitWSAux y acc, ∃ v, w = acc.reverse ++ v
  | [], acc, hne => by
      simp only [splitWSAux]
      rw [if_neg (by simpa [List.isEmpty_iff] using hne)]
      exact ⟨acc.reverse, List.mem_singleton.2 rfl, [], by simp⟩
  | c :: r, acc, hne => by
      simp only [splitWSAux]
      by_cases hc : isSpace c = true
      · rw [if_pos hc, if_neg (by simpa [List.isEmpty_iff] using hne)]
        exact ⟨acc.reverse, List.mem_cons_self _ _, [], by simp⟩
      · rw [if_neg hc]
        obtain ⟨w, hw, v, hv⟩ := splitWSAux_pending r (c :: acc) (by simp)
        refine ⟨w, hw, c :: v, ?_⟩
        rw [hv]
        simp

theorem splitWSAux_findsub : ∀ (x acc P y : Str), P ≠ [] →
    (∀ c ∈ P, isSpace c = false) →
    ∃ w ∈ splitWSAux (x ++ (P ++ y)) acc, ∃ u v, w = u ++ P ++ v
  | [], acc, P, y, hne, hns => by
      rw [List.nil_append, splitWSAux_run P y acc hns]
      obtain ⟨w, hw, v, hv⟩ := splitWSAux_pending y (P.reverse ++ acc) (by
        intro h0
        rcases List.append_eq_nil.1 h0 with ⟨h1, h2⟩
        exact hne (by simpa using h1))
      refine ⟨w, hw, acc.reverse, v, ?_⟩
      rw [hv, List.reverse_append, List.reverse_reverse]
  | c :: x, acc, P, y, hne, hns => by
      have hcons : (c :: x) ++ (P ++ y) = c :: (x ++ (P ++ y)) := rfl
      rw [hcons]
      simp only [splitWSAux]
      by_cases hc : isSpace c = true
      · rw [if_pos hc]
        by_cases ha : acc.isEmpty = true
        · rw [if_pos ha]
          exact splitWSAux_findsub x [] P y hne hns
        · rw [if_neg ha]
          obtain ⟨w, hw, u, v, huv⟩ := splitWSAux_findsub x [] P y hne hns
          exact ⟨w, List.mem_cons_of_mem _ hw, u, v, huv⟩
      · rw [if_neg hc]
        exact splitWSAux_findsub x (c :: acc) P y hne hns

theorem joinSp_mem_sub : ∀ (ws : List Str) (w : Str), w ∈ ws →
    ∃ u v, joinSp ws = u ++ w ++ v
  | [], w, h => absurd h (List.not_mem_nil w)
  | [w'], w, h => by
      obtain rfl : w = w' := List.mem_singleton.1 h
      exact ⟨[], [], by simp [joinSp]⟩
  | w' :: w2 :: ws, w, h => by
      rcases List.mem_cons.1 h with rfl | h'
      · exact ⟨[], ' ' :: joinSp (w2 :: ws), by simp [joinSp]⟩
      · obtain ⟨u, v, huv⟩ := joinSp_mem_sub (w2 :: ws) w h'
        refine ⟨w' ++ ' ' :: u, v, ?_⟩
        show w' ++ ' ' :: joinSp (w2 :: ws) = _
        rw [huv]
        simp

theorem quoteFix_id {s : Str} (hq : hasSub sq2 s = false) : quoteFix s = s := by
  simp [quoteFix, hq]

theorem postfixWord_id {w : Str} (h : toLowerStr (bareOf w) ∉ lowerTerms) :
    postfixWord w = w := by
  simp [postfixWord, h]

/-- C3 (amended): under a gateway that always fails, a placeholder
occurrence survives the whole per-scalar pipeline verbatim provided the
text is free of the token kind markers, the placeholder contains no
whitespace, the text contains no doubled single quote, and no whitespace
word of the text has a bare form matching the protected vocabulary. -/
theorem claim_C3_placeholder_fidelity (g : Str → Nat → Option Str) (s P x y : Str)
    (hsplit : s = x ++ (P ++ y))
    (hg : ∀ a, g (mask_text s []).1 a = none)
    (hPne : P ≠ []) (hPns : ∀ c ∈ P, isSpace c = false)
    (hPH : hasSub (strL "PH") s = false) (hMT : hasSub (strL "MT") s = false)
    (hq : hasSub sq2 s = false)
    (hvoc : ∀ w ∈ splitWS s, toLowerStr (bareOf w) ∉ lowerTerms) :
    hasSub P (pipeOne g s) = true := by
  have h1 := translate_string_fail g s ⟨0, 0⟩ hg hPH hMT
  have h2 : pipeOne g s = post_fix_string s := by
    unfold pipeOne
    rw [h1]
  rw [h2]
  unfold post_fix_string
  rw [quoteFix_id hq]
  have hmap : (splitWS s).map postfixWord = splitWS s := by
    have hcong : ∀ w ∈ splitWS s, postfixWord w = id w :=
      fun w hw => postfixWord_id (hvoc w hw)
    rw [List.map_congr_left hcong, List.map_id]
  rw [hmap]
  have hw0 : ∃ w ∈ splitWS s, ∃ u v, w = u ++ P ++ v := by
    rw [hsplit]
    exact splitWSAux_findsub x [] P y hPne hPns
  obtain ⟨w, hw, u, v, huv⟩ := hw0
  obtain ⟨u2, v2, h3⟩ := joinSp_mem_sub (splitWS s) w hw
  refine hasSub_of_eq (u2 ++ u) (v ++ v2) ?_
  rw [h3, huv]
  simp

theorem claim_C3_placeholder_fidelity_witness :
    strL "go \x7bdest\x7d now" = strL "go " ++ (strL "\x7bdest\x7d" ++ strL " now") ∧
    (∀ a, gNone (mask_text (strL "go \x7bdest\x7d now") []).1 a = none) ∧
    strL "\x7bdest\x7d" ≠ [] ∧
    (∀ c ∈ strL "\x7bdest\x7d", isSpace c = false) ∧
    hasSub (strL "PH") (strL "go \x7bdest\x7d now") = false ∧
    hasSub (strL "MT") (strL "go \x7bdest\x7d now") = false ∧
    hasSub sq2 (strL "go \x7bdest\x7d now") = false ∧
    (∀ w ∈ splitWS (strL "go \x7bdest\x7d now"),
      toLowerStr (bareOf w) ∉ lowerTerms) ∧
    hasSub (strL "\x7bdest\x7d") (pipeOne gNone (strL "go \x7bdest\x7d now")) = true :=
  ⟨by decide, fun a => rfl, by decide, by decide, by decide, by decide, by decide, by decide,
    claim_C3_placeholder_fidelity gNone (strL "go \x7bdest\x7d now") (strL "\x7bdest\x7d")
      (strL "go ") (strL " now") (by decide) (fun a => rfl) (by decide)
      (by decide) (by decide) (by decide) (by decide) (by decide)⟩

/-! ## Amended claim: term fidelity of the per-word casing repair -/

theorem subWordAux_fuel : ∀ (fuel fuel' : Nat) (prev : Bool) (s pat rep : Str),
    s.length ≤ fuel → s.length ≤ fuel' →
    subWordAux fuel prev s pat rep = subWordAux fuel' prev s pat rep
  | _, _, _, [], _, _, _, _ => by simp [subWordAux]
  | 0, _, _, c :: cs, _, _, h, _ => by simp at h
  | _, 0, _, c :: cs, _, _, _, h => by simp at h
  | f+1, f'+1, prev, c :: cs, pat, rep, h, h' => by
      simp only [subWordAux]
      split
      · next hcond =>
        obtain ⟨h1, h2, h3, h4⟩ := hcond
        have hplen : 1 ≤ pat.length := by
          cases pat with
          | nil => exact absurd rfl h2
          | cons a as => simp
        have hd1 : ((c :: cs).drop pat.length).length ≤ f := by
          simp only [List.length_drop, List.length_cons]
          simp at h
          omega
        have hd2 : ((c :: cs).drop pat.length).length ≤ f' := by
          simp only [List.length_drop, List.length_cons]
          simp at h'
          omega
        rw [subWordAux_fuel f f' true ((c :: cs).drop pat.length) pat rep hd1 hd2]
      · rw [subWordAux_fuel f f' (isWordChar c) cs pat rep (by simp at h; omega)
          (by simp at h'; omega)]

theorem subWordAux_skip : ∀ (pre rest pat rep : Str) (fuel : Nat),
    (pre ++ rest).length ≤ fuel →
    (∀ c ∈ pre, isWordChar c = false) →
    (∃ p0 pat', pat = p0 :: pat' ∧ isWordChar p0 = true) →
    subWordAux fuel false (pre ++ rest) pat rep
      = pre ++ subWordAux rest.length false rest pat rep
  | [], rest, pat, rep, fuel, h, _, _ => by
      simp only [List.nil_append]
      exact subWordAux_fuel fuel rest.length false rest pat rep (by simpa using h) le_rfl
  | c :: pre', rest, pat, rep, fuel, h, hpre, hpat => by
      obtain ⟨p0, pat', rfl, hp0⟩ := hpat
      cases fuel with
      | zero => simp at h
      | succ f =>
        have hc : isWordChar c = false := hpre c (List.mem_cons_self _ _)
        have hne : p0 ≠ c := by
          intro he
          rw [he] at hp0
          rw [hp0] at hc
          exact Bool.noConfusion hc
        show subWordAux (f+1) false (c :: (pre' ++ rest)) (p0 :: pat') rep = _
        simp only [subWordAux]
        rw [if_neg (by simp [leadsWith, hne])]
        rw [hc]
        rw [subWordAux_skip pre' rest (p0 :: pat') rep f (by simp at h ⊢; omega)
          (fun d hd => hpre d (List.mem_cons_of_mem _ hd)) ⟨p0, pat', rfl, hp0⟩]
        rfl

theorem subWordAux_tail : ∀ (suf pat rep : Str) (fuel : Nat) (prev : Bool),
    suf.length ≤ fuel →
    (∀ c ∈ suf, isWordChar c = false) →
    (∃ p0 pat', pat = p0 :: pat' ∧ isWordChar p0 = true) →
    subWordAux fuel prev suf pat rep = suf
  | [], _, _, fuel, prev, _, _, _ => by simp [subWordAux]
  | c :: suf', pat, rep, fuel, prev, h, hsuf, hpat => by
      obtain ⟨p0, pat', rfl, hp0⟩ := hpat
      cases fuel with
      | zero => simp at h
      | succ f =>
        have hc : isWordChar c = false := hsuf c (List.mem_cons_self _ _)
        have hne : p0 ≠ c := by
          intro he
          rw [he] at hp0
          rw [hp0] at hc
          exact Bool.noConfusion hc
        simp only [subWordAux]
        rw [if_neg (by simp [leadsWith, hne])]
        rw [hc, subWordAux_tail suf' (p0 :: pat') rep f false (by simp at h; omega)
          (fun d hd => hsuf d (List.mem_cons_of_mem _ hd)) ⟨p0, pat', rfl, hp0⟩]

theorem bareOf_decomp {pre core suf : Str}
    (hpre : ∀ c ∈ pre, isWordChar c = false)
    (hsuf : ∀ c ∈ suf, isWordChar c = false)
    (hcore : ∀ c ∈ core, isWordChar c = true) :
    bareOf (pre ++ core ++ suf) = core := by
  unfold bareOf
  rw [List.filter_append, List.filter_append]
  have h1 : pre.filter isWordChar = [] :=
    List.filter_eq_nil_iff.2 (fun a ha => by simp [hpre a ha])
  have h2 : core.filter isWordChar = core := List.filter_eq_self.2 hcore
  have h3 : suf.filter isWordChar = [] :=
    List.filter_eq_nil_iff.2 (fun a ha => by simp [hsuf a ha])
  rw [h1, h2, h3]
  simp

theorem pickOrig_some : ∀ lw ∈ lowerTerms,
    ∃ orig, pickOrig lw = some orig ∧ toLowerStr orig = lw := by
  intro lw hm
  have h : ∀ lw2 ∈ lowerTerms, (pickOrig lw2).isSome = true ∧
      toLowerStr ((pickOrig lw2).getD []) = lw2 := by decide
  obtain ⟨h1, h2⟩ := h lw hm
  cases hp : pickOrig lw with
  | none =>
    rw [hp] at h1
    exact Bool.noConfusion h1
  | some o =>
    refine ⟨o, rfl, ?_⟩
    rw [hp] at h2
    simpa using h2

/-- C6 (amended): for a word consisting of a protected-vocabulary core
surrounded by punctuation (non-word characters), the post-fix casing
repair rewrites the core back to the registered canonical spelling while
leaving the attached punctuation intact. -/
theorem claim_C6_term_fidelity (pre core suf : Str)
    (hpre : ∀ c ∈ pre, isWordChar c = false)
    (hsuf : ∀ c ∈ suf, isWordChar c = false)
    (hcore : ∀ c ∈ core, isWordChar c = true)
    (hne : core ≠ [])
    (hmem : toLowerStr core ∈ lowerTerms) :
    ∃ orig, pickOrig (toLowerStr core) = some orig ∧
      toLowerStr orig = toLowerStr core ∧
      postfixWord (pre ++ core ++ suf) = pre ++ (orig ++ suf) := by
  obtain ⟨orig, hpick, hlow⟩ := pickOrig_some (toLowerStr core) hmem
  refine ⟨orig, hpick, hlow, ?_⟩
  have hbare : bareOf (pre ++ core ++ suf) = core := bareOf_decomp hpre hsuf hcore
  obtain ⟨p0, core', rfl⟩ : ∃ p0 core', core = p0 :: core' := by
    cases core with
    | nil => exact absurd rfl hne
    | cons a as => exact ⟨a, as, rfl⟩
  have hp0 : isWordChar p0 = true := hcore p0 (List.mem_cons_self _ _)
  have hbd : boundaryOK suf = true := by
    cases suf with
    | nil => rfl
    | cons a tl =>
      show (!isWordChar a) = true
      rw [hsuf a (List.mem_cons_self _ _)]
      rfl
  have hform : postfixWord (pre ++ (p0 :: core') ++ suf)
      = subWordAux (pre ++ (p0 :: core') ++ suf).length false
          (pre ++ (p0 :: core') ++ suf) (p0 :: core') orig := by
    simp only [postfixWord, hbare, hpick]
    rw [if_pos hmem]
  have hmatch : subWordAux ((p0 :: core') ++ suf).length false ((p0 :: core') ++ suf)
      (p0 :: core') orig = orig ++ suf := by
    have hdrop : (p0 :: (core' ++ suf)).drop (p0 :: core').length = suf := by
      rw [show (p0 :: (core' ++ suf)) = (p0 :: core') ++ suf from rfl, List.drop_left]
    show subWordAux ((core' ++ suf).length + 1) false (p0 :: (core' ++ suf))
      (p0 :: core') orig = orig ++ suf
    simp only [subWordAux]
    rw [if_pos ⟨trivial, by simp, leadsWith_refl_append (p0 :: core') suf,
      by rw [hdrop]; exact hbd⟩]
    rw [hdrop, subWordAux_tail suf (p0 :: core') orig (core' ++ suf).length true
      (by simp) hsuf ⟨p0, core', rfl, hp0⟩]
  rw [hform, List.append_assoc,
    subWordAux_skip pre ((p0 :: core') ++ suf) (p0 :: core') orig
      (pre ++ ((p0 :: core') ++ suf)).length le_rfl hpre ⟨p0, core', rfl, hp0⟩,
    hmatch]

theorem claim_C6_term_fidelity_witness :
    (∀ c ∈ strL "(", isWordChar c = false) ∧
    (∀ c ∈ strL ")", isWordChar c = false) ∧
    (∀ c ∈ strL "spawn", isWordChar c = true) ∧
    strL "spawn" ≠ [] ∧
    toLowerStr (strL "spawn") ∈ lowerTerms ∧
    ∃ orig, pickOrig (toLowerStr (strL "spawn")) = some orig ∧
      toLowerStr orig = toLowerStr (strL "spawn") ∧
      postfixWord (strL "(" ++ strL "spawn" ++ strL ")")
        = strL "(" ++ (orig ++ strL ")") :=
  ⟨by decide, by decide, by decide, by decide, by decide,
    claim_C6_term_fidelity (strL "(") (strL "spawn") (strL ")")
      (by decide) (by decide) (by decide) (by decide) (by decide)⟩
